import Mathlib

/-!
Verification of the Zen lexer (`src/parser/lexer/lexer.c`, `token.c`).

The development shallowly embeds `struct lexer_s` and every function of
`lexer.c` reachable from `lexer_get_next`, together with `token_create`
from `token.c`.  Machine integers are modelled as `Nat`/`Int`; the one
place where `size_t` wraparound is observable (`_ahead` when the cursor
sits at or past `bytes_read`) is modelled with an explicit `% 2 ^ 64`.
Unbounded `while` loops are modelled with an explicit fuel argument and
return `Option`; the callers pass `avail l + 1` fuel (one more than the
number of bytes that can still be consumed), and termination is a proved
theorem (the loops never return `none` from a well-formed state) rather
than an assumption.
-/

set_option maxHeartbeats 4000000

namespace Zen

/-- Maximum token size in bytes, from `token.h`: `#define ZLANG_TOKSIZ 65536`. -/
def TOKSIZ : Nat := 65536

/-- Modelled from the spec: `ZLANG_LEXER_LOOKAHEAD`, the lexer's lookahead
depth in bytes.  The macro's defining header is missing from `src/`; the
spec fixes the guaranteed lookahead to one byte ("only one codepoint of
peek ... guaranteed"). -/
def LOOKAHEAD : Nat := 1

/-- C `isspace` (C locale) applied to an `int` holding EOF (-1) or an
unsigned-char value: space, tab, newline, vertical tab, form feed,
carriage return. -/
def isspace (c : Int) : Bool :=
  c = 32 || c = 9 || c = 10 || c = 11 || c = 12 || c = 13

/-- C `isdigit` (C locale). -/
def isdigit (c : Int) : Bool := 48 ≤ c && c ≤ 57

/-- C `isalpha` (C locale). -/
def isalpha (c : Int) : Bool := (65 ≤ c && c ≤ 90) || (97 ≤ c && c ≤ 122)

/-- C `isalnum` (C locale). -/
def isalnum (c : Int) : Bool := isalpha c || isdigit c

/-- Storing an `int` into a `char` array keeps its low byte; e.g.
`(char)EOF` is stored as the byte 255. -/
def toByte (c : Int) : Nat := (c % 256).toNat

/-- Conversion of an `int` to a (signed, two's-complement) `char`, as in
`char esc = lexer_pre_advance(lexer)`. -/
def toChar (c : Int) : Int :=
  let b := c % 256
  if 128 ≤ b then b - 256 else b

/-- Contents of the NUL-terminated C string built from the raw bytes `s`:
everything before the first NUL byte.  Models the `zlang_strdup`/`strlen`
view of a lexeme taken by `token_create`. -/
def cstr (s : List Nat) : List Nat := s.takeWhile (fun b => b ≠ 0)

/-- Overwrite `buf` with `data` starting at offset `off` (the destination
side of `memmove`/`fread`).  `memmove` copies as if through a temporary, so
this functional update is its exact behaviour even for overlapping
regions. -/
def writeAt (buf : List Nat) (off : Nat) (data : List Nat) : List Nat :=
  buf.take off ++ data ++ buf.drop (off + data.length)

/-- The token-type enum used by `lexer.c` (the `TOKEN_*` constants; their
defining header is missing from `src/`, but only the constructors named by
`lexer.c` matter). -/
inductive Tok where
  | TOKEN_KEYWORD
  | TOKEN_COMMENT
  | TOKEN_IDENTIFIER
  | TOKEN_NUMBER
  | TOKEN_STRING
  | TOKEN_ASSIGN
  | TOKEN_ADD
  | TOKEN_SUB
  | TOKEN_MUL
  | TOKEN_DIV
  | TOKEN_MOD
  | TOKEN_ADD_ASSIGN
  | TOKEN_SUB_ASSIGN
  | TOKEN_MUL_ASSIGN
  | TOKEN_DIV_ASSIGN
  | TOKEN_MOD_ASSIGN
  | TOKEN_AND
  | TOKEN_OR
  | TOKEN_NOT
  | TOKEN_EQ
  | TOKEN_NE
  | TOKEN_LT
  | TOKEN_GT
  | TOKEN_LE
  | TOKEN_GE
  | TOKEN_LT_PAREN
  | TOKEN_RT_PAREN
  | TOKEN_LT_BRACK
  | TOKEN_RT_BRACK
  | TOKEN_LT_BRACE
  | TOKEN_RT_BRACE
  | TOKEN_ARROW
  | TOKEN_DOT
  | TOKEN_COMMA
  | TOKEN_NEWLINE
  | TOKEN_EOF
  | TOKEN_INVALID
deriving DecidableEq

/-- The value produced by `token_create` (`struct token_s` in `token.c`):
a type, an optional owned C-string lexeme, and its `strlen`. -/
structure Token where
  type : Tok
  lexeme : Option (List Nat)
  len : Nat
deriving DecidableEq

/-- `token_create` from `token.c` (allocation assumed to succeed):
the lexeme is duplicated with `zlang_strdup`, so a NULL argument stays
NULL and a non-NULL argument is copied as a C string, i.e. truncated at
its first NUL byte; `len` is the `strlen` of the copy. -/
def token_create (type : Tok) (lexeme : Option (List Nat)) : Token :=
  match lexeme with
  | none => { type := type, lexeme := none, len := 0 }
  | some s =>
    let d := cstr s
    { type := type, lexeme := some d, len := d.length }

/-- `_make_token` from `lexer.c`: with `len == 0` the lexeme pointer stays
NULL; otherwise the first `len` bytes of the token buffer are copied and
NUL-terminated, and handed to `token_create`. -/
def _make_token (type : Tok) (tb : List Nat) : Token :=
  token_create type (if tb.length = 0 then none else some tb)

/-- Modelled from the spec: `KW_TAB`, the NUL-terminated table of reserved
spellings scanned linearly by `lex_identifier`, is declared in a header
missing from `src/`.  The spec (§6, keyword set variant A) lists
`if, elseif, else, for, in, while, fn, class, private`; the bytes below
spell exactly those words. -/
def KW_TAB : List (List Nat) :=
  [[105, 102],
   [101, 108, 115, 101, 105, 102],
   [101, 108, 115, 101],
   [102, 111, 114],
   [105, 110],
   [119, 104, 105, 108, 101],
   [102, 110],
   [99, 108, 97, 115, 115],
   [112, 114, 105, 118, 97, 116, 101]]

/-- The lexer state of `struct lexer_s` (`lexer.c`).  `B` and `K` model
the macros `ZLANG_LEXER_BUFSIZ` and `ZLANG_LEXER_KEEP_BACK`, whose
defining header is missing from `src/` (the spec only requires a fixed
buffer capacity and an unget depth K with K ≥ 1, so both are carried as
parameters of the state).  `fp` is the unread remainder of the byte
source (a successful `fread` of `n` bytes removes `min n fp.length`
bytes from it), `buf` is the I/O buffer (always of length `B`), `idx` is
`bufptr - buf`, and `hist` pairs up the parallel arrays
`_hist_line`/`_hist_col` (oldest entry first, length `_hist_len`). -/
structure LexState where
  B : Nat
  K : Nat
  fp : List Nat
  buf : List Nat
  idx : Nat
  bytesRead : Nat
  line : Nat
  col : Nat
  tbuf : List Nat
  hist : List (Nat × Nat)
deriving DecidableEq

/-- `_buf_full`: the cursor has reached the end of the valid bytes. -/
def _buf_full (l : LexState) : Bool := l.bytesRead ≤ l.idx

/-- `_ahead`: `(size_t)(buf + bytes_read - bufptr - 1)`, the number of
buffered bytes after the current char.  The subtraction is performed in
`size_t`, so when the cursor sits at or past `bytes_read` the value wraps
to a huge number; the explicit `% 2 ^ 64` keeps that behaviour. -/
def _ahead (l : LexState) : Nat :=
  (2 ^ 64 + l.bytesRead - (l.idx + 1)) % 2 ^ 64

/-- `_push_pos`: push the current (line, col) into the bounded history,
evicting the oldest entry when the history already holds `K` entries. -/
def _push_pos (l : LexState) : LexState :=
  if l.hist.length = l.K then
    { l with hist := l.hist.drop 1 ++ [(l.line, l.col)] }
  else
    { l with hist := l.hist ++ [(l.line, l.col)] }

/-- `_slide_refill`: keep up to `K` bytes ending at the current char (they
are moved so the current char lands at offset `K`), move the unread tail
to offset `K + 1`, reposition the cursor to offset `K`, and fill the rest
of the buffer from the byte source.  Returns the number of newly read
bytes together with the new state.  The second `memmove` reads from the
buffer already modified by the first one, exactly as the C code does. -/
def _slide_refill (l : LexState) : Nat × LexState :=
  let i := l.idx
  let back := min l.K (i + 1)
  let tail := l.bytesRead - (i + 1)
  let buf1 :=
    if back ≠ 0 then
      writeAt l.buf (l.K + 1 - back) ((l.buf.drop (i + 1 - back)).take back)
    else l.buf
  let buf2 :=
    if tail ≠ 0 then
      writeAt buf1 (l.K + 1) ((buf1.drop (i + 1)).take tail)
    else buf1
  let filled := l.K + 1 + tail
  let space := if filled < l.B then l.B - filled else 0
  let got := min space l.fp.length
  let buf3 := if 0 < space then writeAt buf2 filled (l.fp.take got) else buf2
  (got,
   { l with
      buf := buf3
      idx := l.K
      bytesRead := filled + got
      fp := l.fp.drop got })

/-- `_ensure_ahead`: refill through `_slide_refill` when the lookahead is
insufficient; both returns after the refill evaluate the same
`_ahead(lexer) >= need` check, as in the C code. -/
def _ensure_ahead (l : LexState) (need : Nat) : Bool × LexState :=
  if need ≤ _ahead l then (true, l)
  else if l.bytesRead = 0 then (false, l)
  else
    let (got, l1) := _slide_refill l
    if got = 0 then (decide (need ≤ _ahead l1), l1)
    else (decide (need ≤ _ahead l1), l1)

/-- `_prime`: zero the `K`-byte unget region at the front of the buffer,
read up to `B - K` bytes after it, and put the cursor on the first real
byte. -/
def _prime (l : LexState) : Nat × LexState :=
  let buf1 := writeAt l.buf 0 (List.replicate l.K 0)
  let got := min (l.B - l.K) l.fp.length
  let buf2 := writeAt buf1 l.K (l.fp.take got)
  (got,
   { l with
      buf := buf2
      idx := l.K
      bytesRead := l.K + got
      fp := l.fp.drop got })

/-- `_tbuf_reset`: empty the token buffer. -/
def _tbuf_reset (l : LexState) : LexState := { l with tbuf := [] }

/-- `_tbuf_put`: append the low byte of `ch` if there is room for it and
the terminating NUL, otherwise do nothing. -/
def _tbuf_put (l : LexState) (ch : Int) : LexState :=
  if l.tbuf.length + 1 < TOKSIZ then { l with tbuf := l.tbuf ++ [toByte ch] }
  else l

/-- `_tbuf_put2`: append two bytes. -/
def _tbuf_put2 (l : LexState) (a b : Int) : LexState :=
  _tbuf_put (_tbuf_put l a) b

/-- `lexer_current`: prime on first use, then return the byte at the
cursor, or EOF (-1) when the cursor has consumed all valid bytes. -/
def lexer_current (l : LexState) : Int × LexState :=
  if l.bytesRead = 0 then
    let (got, l1) := _prime l
    if got = 0 then (-1, l1)
    else if _buf_full l1 then (-1, l1)
    else ((l1.buf.getD l1.idx 0 : Nat), l1)
  else if _buf_full l then (-1, l)
  else ((l.buf.getD l.idx 0 : Nat), l)

/-- `lexer_peek`: prime on first use, ensure one byte of lookahead
(refilling if needed), and return the byte one past the cursor or EOF. -/
def lexer_peek (l : LexState) : Int × LexState :=
  if l.bytesRead = 0 then
    let (got, l1) := _prime l
    if got = 0 then (-1, l1)
    else
      let (ok, l2) := _ensure_ahead l1 LOOKAHEAD
      if ok then ((l2.buf.getD (l2.idx + 1) 0 : Nat), l2) else (-1, l2)
  else
    let (ok, l2) := _ensure_ahead l LOOKAHEAD
    if ok then ((l2.buf.getD (l2.idx + 1) 0 : Nat), l2) else (-1, l2)

/-- Body shared by `lexer_pre_advance` after the priming check: push the
pre-move position, move the cursor, update line/column from the byte
looked at, and return the byte advanced to (or EOF past the last byte). -/
def _pre_advance_core (l : LexState) : Int × LexState :=
  let (ok, l1) := _ensure_ahead l 1
  if ok then
    let l2 := _push_pos l1
    let nxt : Int := (l2.buf.getD (l2.idx + 1) 0 : Nat)
    let l3 :=
      if nxt = 10 then { l2 with idx := l2.idx + 1, line := l2.line + 1, col := 1 }
      else { l2 with idx := l2.idx + 1, col := l2.col + 1 }
    (nxt, l3)
  else
    if _buf_full l1 then (-1, l1)
    else
      let l2 := _push_pos l1
      let cur : Int := (l2.buf.getD l2.idx 0 : Nat)
      let l3 :=
        if cur = 10 then { l2 with idx := l2.idx + 1, line := l2.line + 1, col := 1 }
        else { l2 with idx := l2.idx + 1, col := l2.col + 1 }
      (-1, l3)

/-- `lexer_pre_advance`: advance one byte and return the byte advanced
to; at the end of input, still move past the final byte (so later calls
see EOF) and return EOF. -/
def lexer_pre_advance (l : LexState) : Int × LexState :=
  if l.bytesRead = 0 then
    let (got, l1) := _prime l
    if got = 0 then (-1, l1) else _pre_advance_core l1
  else _pre_advance_core l

/-- Body shared by `lexer_post_advance` after the priming check: read the
current char (through `lexer_current`, truncated to `char`), advance as
`lexer_pre_advance` does, and return the pre-move char. -/
def _post_advance_core (l : LexState) : Int × LexState :=
  let (c, l1) := lexer_current l
  let cur := toChar c
  let (ok, l2) := _ensure_ahead l1 1
  if ok then
    let l3 := _push_pos l2
    let nxt : Int := (l3.buf.getD (l3.idx + 1) 0 : Nat)
    let l4 :=
      if nxt = 10 then { l3 with idx := l3.idx + 1, line := l3.line + 1, col := 1 }
      else { l3 with idx := l3.idx + 1, col := l3.col + 1 }
    (cur, l4)
  else
    if _buf_full l2 then (cur, l2)
    else
      let l3 := _push_pos l2
      let c2 : Int := (l3.buf.getD l3.idx 0 : Nat)
      let l4 :=
        if c2 = 10 then { l3 with idx := l3.idx + 1, line := l3.line + 1, col := 1 }
        else { l3 with idx := l3.idx + 1, col := l3.col + 1 }
      (cur, l4)

/-- `lexer_post_advance`: advance one byte and return the byte advanced
past. -/
def lexer_post_advance (l : LexState) : Int × LexState :=
  if l.bytesRead = 0 then
    let (got, l1) := _prime l
    if got = 0 then (-1, l1) else _post_advance_core l1
  else _post_advance_core l

/-- `lexer_unget`: reverse the last advance if the history is non-empty
and the cursor is not at buffer start; restore line/column from the
newest history entry.  Returns false (leaving the state untouched)
otherwise. -/
def lexer_unget (l : LexState) : Bool × LexState :=
  if l.hist.length = 0 then (false, l)
  else if l.idx = 0 then (false, l)
  else
    let p := l.hist.getLastD (0, 0)
    (true,
     { l with idx := l.idx - 1, line := p.1, col := p.2, hist := l.hist.dropLast })

/-- `lexer_skip`: advance up to `n` bytes, stopping early at EOF. -/
def lexer_skip (l : LexState) : Nat → LexState
  | 0 => l
  | n + 1 =>
    let (c, l1) := lexer_pre_advance l
    if c = -1 then l1 else lexer_skip l1 n

/-- Fuel bound for the unbounded scanning loops: one more than the number
of bytes the lexer can still consume (unconsumed buffered bytes plus the
unread remainder of the source). -/
def avail (l : LexState) : Nat := (l.bytesRead - l.idx) + l.fp.length

/-- Loop of `lexer_skip_whitespace`: skip blanks, but stop at EOF, at any
non-space byte, and before a newline. -/
def skipWsLoop : Nat → LexState → Option LexState
  | 0, _ => none
  | fuel + 1, l =>
    let (c, l1) := lexer_current l
    if c = -1 then some l1
    else if ¬ isspace c then some l1
    else if c = 10 then some l1
    else skipWsLoop fuel (lexer_skip l1 1)

/-- `lexer_skip_whitespace`, with its loop driven by `avail` fuel. -/
def lexer_skip_whitespace (l : LexState) : Option LexState :=
  skipWsLoop (avail l + 1) l

/-- Loop of `lex_single_line_comment`:
`while (lexer_current != '\n' && lexer_current != EOF) _tbuf_put(lexer_pre_advance)`.
Note the C loop stores the return value of `lexer_pre_advance`, which is
the byte advanced to, not the byte advanced past. -/
def lexSLCLoop : Nat → LexState → Option LexState
  | 0, _ => none
  | fuel + 1, l =>
    let (c1, l1) := lexer_current l
    if c1 = 10 then some l1
    else
      let (c2, l2) := lexer_current l1
      if c2 = -1 then some l2
      else
        let (r, l3) := lexer_pre_advance l2
        lexSLCLoop fuel (_tbuf_put l3 r)

/-- `lex_single_line_comment`: skip the two slashes, scan to the newline
or EOF, and emit a comment token from the token buffer. -/
def lex_single_line_comment (l : LexState) : Option (Token × LexState) :=
  let l1 := lexer_skip l 2
  (lexSLCLoop (avail l1 + 1) l1).map
    (fun l2 => (_make_token .TOKEN_COMMENT l2.tbuf, l2))

/-- Loop of `lex_multi_line_comment`: stop after consuming a `./` closer,
stop at EOF, otherwise store `lexer_pre_advance`'s return value. -/
def lexMLCLoop : Nat → LexState → Option LexState
  | 0, _ => none
  | fuel + 1, l =>
    let (c1, l1) := lexer_current l
    let hitClose :=
      if c1 = 46 then
        let (p, lp) := lexer_peek l1
        (decide (p = 47), lp)
      else (false, l1)
    if hitClose.1 then some (lexer_skip hitClose.2 2)
    else
      let (c2, l3) := lexer_current hitClose.2
      if c2 = -1 then some l3
      else
        let (r, l4) := lexer_pre_advance l3
        lexMLCLoop fuel (_tbuf_put l4 r)

/-- `lex_multi_line_comment`: skip the opening `/.`, scan to the closer
or EOF, and emit a comment token from the token buffer. -/
def lex_multi_line_comment (l : LexState) : Option (Token × LexState) :=
  let l1 := lexer_skip l 2
  (lexMLCLoop (avail l1 + 1) l1).map
    (fun l2 => (_make_token .TOKEN_COMMENT l2.tbuf, l2))

/-- Loop of `lex_identifier`: while the current byte is alphanumeric or
an underscore, append it (via a second `lexer_current` call, as in the C
code) and skip one byte. -/
def lexIdLoop : Nat → LexState → Option LexState
  | 0, _ => none
  | fuel + 1, l =>
    let (c, l1) := lexer_current l
    if ¬ (isalnum c || c = 95) then some l1
    else
      let (c2, l2) := lexer_current l1
      let l3 := _tbuf_put l2 c2
      lexIdLoop fuel (lexer_skip l3 1)

/-- `lex_identifier`: scan the spelling greedily, then emit a keyword
token when the NUL-terminated token buffer matches an entry of `KW_TAB`,
an identifier token otherwise. -/
def lex_identifier (l : LexState) : Option (Token × LexState) :=
  (lexIdLoop (avail l + 1) l).map (fun l1 =>
    if cstr l1.tbuf ∈ KW_TAB then (_make_token .TOKEN_KEYWORD l1.tbuf, l1)
    else (_make_token .TOKEN_IDENTIFIER l1.tbuf, l1))

/-- Loop of `lex_string` with entry quote `q`: stop at EOF or an
(unescaped) newline, consume the matching quote and stop, process escape
sequences (the escaped byte is read with `lexer_pre_advance` and
compared as a `char`), and otherwise append the current byte. -/
def lexStrLoop (q : Int) : Nat → LexState → Option LexState
  | 0, _ => none
  | fuel + 1, l =>
    let (ch, l1) := lexer_current l
    if ch = -1 || ch = 10 then some l1
    else if ch = q then some (lexer_skip l1 1)
    else if ch = 92 then
      let (esc, l2) := lexer_pre_advance l1
      let eb := toChar esc
      let l3 :=
        if eb = 110 then _tbuf_put l2 10
        else if eb = 116 then _tbuf_put l2 9
        else if eb = 92 then _tbuf_put l2 92
        else if eb = 34 then _tbuf_put l2 34
        else if eb = 39 then _tbuf_put l2 39
        else _tbuf_put (_tbuf_put l2 92) esc
      lexStrLoop q fuel (lexer_skip l3 1)
    else
      lexStrLoop q fuel (lexer_skip (_tbuf_put l1 ch) 1)

/-- `lex_string`: consume the opening quote, scan the body, and emit a
string token from the token buffer (quotes excluded). -/
def lex_string (l : LexState) (entry_quote : Int) : Option (Token × LexState) :=
  let l1 := lexer_skip l 1
  (lexStrLoop entry_quote (avail l1 + 1) l1).map
    (fun l2 => (_make_token .TOKEN_STRING l2.tbuf, l2))

/-- Loop of `lex_number_or_dot`:
`while (isdigit(lexer_current()) || lexer_current() == '.')` with the
short-circuit second `lexer_current` call, then a third call for the
body's `ch`.  A second dot breaks out without consuming.  `prev` carries
the last `lexer_post_advance` return value; it corresponds to the C
variable `char prev`, which is uninitialized until the loop body first
runs — that is modelled by starting from `none`. -/
def lexNumLoop (dotSeen : Bool) (prev : Option Int) :
    Nat → LexState → Option (Option Int × LexState)
  | 0, _ => none
  | fuel + 1, l =>
    let (c1, l1) := lexer_current l
    let cond :=
      if isdigit c1 then (true, l1)
      else
        let (c2, l2) := lexer_current l1
        (decide (c2 = 46), l2)
    if cond.1 then
      let (ch, l3) := lexer_current cond.2
      if ch = 46 then
        if dotSeen then some (prev, l3)
        else
          let l4 := _tbuf_put l3 ch
          let (pr, l5) := lexer_post_advance l4
          lexNumLoop true (some pr) fuel l5
      else
        let l4 := _tbuf_put l3 ch
        let (pr, l5) := lexer_post_advance l4
        lexNumLoop dotSeen (some pr) fuel l5
    else some (prev, cond.2)

/-- `lex_number_or_dot` after the leading-dot check: run the scan loop,
unget when the C code's `prev` compares equal to `'.'` (with `prev`
uninitialized when the loop body never ran, modelled as `none`, which
compares unequal), and emit a number token. -/
def _lex_number_rest (l : LexState) (current : Int) : Option (Token × LexState) :=
  (lexNumLoop (decide (current = 46)) none (avail l + 1) l).map (fun r =>
    let l2 := if r.1 = some 46 then (lexer_unget r.2).2 else r.2
    (_make_token .TOKEN_NUMBER l2.tbuf, l2))

/-- `lex_number_or_dot`: a leading dot not followed by a digit is a dot
token; otherwise scan a number allowing at most one dot. -/
def lex_number_or_dot (l : LexState) (current : Int) : Option (Token × LexState) :=
  if current = 46 then
    let (p, l1) := lexer_peek l
    if ¬ isdigit p then
      let l2 := lexer_skip (_tbuf_put l1 46) 1
      some (_make_token .TOKEN_DOT l2.tbuf, l2)
    else _lex_number_rest l1 current
  else _lex_number_rest l current

/-- `lex_arrow`: consume the two arrow bytes and emit an arrow token. -/
def lex_arrow (l : LexState) (arrow_symbol : Int) : Token × LexState :=
  let l1 := lexer_skip (_tbuf_put2 l arrow_symbol 62) 2
  (_make_token .TOKEN_ARROW l1.tbuf, l1)

/-- `lex_comparison_op`: a `=` suffix gives `==`/`!=`/`<=`/`>=`,
otherwise the single-byte assign/not/less/greater token. -/
def lex_comparison_op (l : LexState) (current : Int) : Token × LexState :=
  let (p, l1) := lexer_peek l
  if p = 61 then
    let l2 := lexer_skip (_tbuf_put2 l1 current 61) 2
    let type :=
      if current = 61 then Tok.TOKEN_EQ
      else if current = 33 then Tok.TOKEN_NE
      else if current = 60 then Tok.TOKEN_LE
      else if current = 62 then Tok.TOKEN_GE
      else Tok.TOKEN_INVALID
    (_make_token type l2.tbuf, l2)
  else
    let l2 := lexer_skip (_tbuf_put l1 current) 1
    let type :=
      if current = 61 then Tok.TOKEN_ASSIGN
      else if current = 33 then Tok.TOKEN_NOT
      else if current = 60 then Tok.TOKEN_LT
      else if current = 62 then Tok.TOKEN_GT
      else Tok.TOKEN_INVALID
    (_make_token type l2.tbuf, l2)

/-- `lex_binary_op`: a `=` suffix gives the compound-assignment token,
otherwise the plain arithmetic operator token. -/
def lex_binary_op (l : LexState) (current : Int) : Token × LexState :=
  let (p, l1) := lexer_peek l
  if p = 61 then
    let l2 := lexer_skip (_tbuf_put2 l1 current 61) 2
    let type :=
      if current = 43 then Tok.TOKEN_ADD_ASSIGN
      else if current = 45 then Tok.TOKEN_SUB_ASSIGN
      else if current = 42 then Tok.TOKEN_MUL_ASSIGN
      else if current = 47 then Tok.TOKEN_DIV_ASSIGN
      else if current = 37 then Tok.TOKEN_MOD_ASSIGN
      else Tok.TOKEN_INVALID
    (_make_token type l2.tbuf, l2)
  else
    let l2 := lexer_skip (_tbuf_put l1 current) 1
    let type :=
      if current = 43 then Tok.TOKEN_ADD
      else if current = 45 then Tok.TOKEN_SUB
      else if current = 42 then Tok.TOKEN_MUL
      else if current = 47 then Tok.TOKEN_DIV
      else if current = 37 then Tok.TOKEN_MOD
      else Tok.TOKEN_INVALID
    (_make_token type l2.tbuf, l2)

/-- `lex_logic_op`: consume the doubled symbol and emit `&&` or `||`. -/
def lex_logic_op (l : LexState) (symbol : Int) : Token × LexState :=
  let l1 := lexer_skip (_tbuf_put2 l symbol symbol) 2
  if symbol = 38 then (_make_token .TOKEN_AND l1.tbuf, l1)
  else (_make_token .TOKEN_OR l1.tbuf, l1)

/-- `lex_single_symbol`: consume one byte; `!`, comma, brackets, braces,
parentheses and newline get their own kinds, everything else (including
the semicolon) is `TOKEN_INVALID`. -/
def lex_single_symbol (l : LexState) (current : Int) : Token × LexState :=
  let l1 := lexer_skip (_tbuf_put l current) 1
  let type :=
    if current = 33 then Tok.TOKEN_NOT
    else if current = 44 then Tok.TOKEN_COMMA
    else if current = 40 then Tok.TOKEN_LT_PAREN
    else if current = 41 then Tok.TOKEN_RT_PAREN
    else if current = 91 then Tok.TOKEN_LT_BRACK
    else if current = 93 then Tok.TOKEN_RT_BRACK
    else if current = 123 then Tok.TOKEN_LT_BRACE
    else if current = 125 then Tok.TOKEN_RT_BRACE
    else if current = 10 then Tok.TOKEN_NEWLINE
    else Tok.TOKEN_INVALID
  (_make_token type l1.tbuf, l1)

/-- Tail of `lexer_get_next`'s dispatch, from the comparison-operator
check on: comparison, binary, doubled-logic (falling through to
`lex_single_symbol` with the peeked state when the second byte does not
match), then the single-symbol fallback. -/
def _dispatch_ops (l : LexState) (cur : Int) : Option (Token × LexState) :=
  if cur = 61 || cur = 33 || cur = 60 || cur = 62 then
    some (lex_comparison_op l cur)
  else if cur = 43 || cur = 45 || cur = 42 || cur = 47 || cur = 37 then
    some (lex_binary_op l cur)
  else if cur = 38 || cur = 124 then
    let (p, l1) := lexer_peek l
    if p = cur then some (lex_logic_op l1 cur)
    else some (lex_single_symbol l1 cur)
  else some (lex_single_symbol l cur)

/-- Middle of `lexer_get_next`'s dispatch: identifier/keyword, string,
number-or-dot, arrow (peeking only when the first byte is `-` or `=`),
then `_dispatch_ops`. -/
def _dispatch_main (l : LexState) (cur : Int) : Option (Token × LexState) :=
  if isalpha cur || cur = 95 then lex_identifier l
  else if cur = 34 || cur = 39 then lex_string l cur
  else if isdigit cur || cur = 46 then lex_number_or_dot l cur
  else if cur = 45 || cur = 61 then
    let (p, l1) := lexer_peek l
    if p = 62 then some (lex_arrow l1 cur)
    else _dispatch_ops l1 cur
  else _dispatch_ops l cur

/-- Part of `lexer_get_next` after whitespace skipping: read the current
byte, return an EOF token at end of input, dispatch the two comment forms
(each `/`-guard peeking separately, as the two `&&`s in the C code do),
then hand off to `_dispatch_main`.  The C code narrows `cc` to
`char cur`; every comparison below is against an ASCII code below 128 and
every classifier re-widens to `unsigned char`, so using the byte value
directly is observation-equivalent. -/
def _lex_after_ws (l : LexState) : Option (Token × LexState) :=
  let (cc, l2) := lexer_current l
  if cc = -1 then some (_make_token .TOKEN_EOF l2.tbuf, l2)
  else
    let cur := cc
    if cur = 47 then
      let (p1, l3) := lexer_peek l2
      if p1 = 47 then lex_single_line_comment l3
      else
        let (p2, l4) := lexer_peek l3
        if p2 = 46 then lex_multi_line_comment l4
        else _dispatch_main l4 cur
    else _dispatch_main l2 cur

/-- `lexer_get_next`: reset the token buffer, skip non-newline
whitespace, and classify one token.  `none` would mean a scanning loop
ran out of fuel; the totality theorem shows this never happens from a
well-formed state. -/
def lexer_get_next (l : LexState) : Option (Token × LexState) :=
  match lexer_skip_whitespace (_tbuf_reset l) with
  | none => none
  | some l1 => _lex_after_ws l1

/-- The state built by `lexer_create` over a byte source: cursor at
buffer start, nothing read, position (1,1), empty token buffer and
history.  The malloc'd buffer contents start unspecified; `buf0` (of
length `B`) supplies them. -/
def lexer_create (B K : Nat) (buf0 : List Nat) (input : List Nat) : LexState :=
  { B := B, K := K, fp := input, buf := buf0, idx := 0, bytesRead := 0,
    line := 1, col := 1, tbuf := [], hist := [] }

/-- A fresh lexer whose buffer happens to start zeroed. -/
def mkLexer (B K : Nat) (input : List Nat) : LexState :=
  lexer_create B K (List.replicate B 0) input

/-- Well-formedness of a lexer state: the buffer really has capacity `B`,
the valid region fits in it, the cursor is at most one past the valid
region (the C code moves one past the last byte at EOF), the history
respects its bound, the configuration is sane (`K ≥ 1`, room for the
unget region plus at least one fresh byte, capacity below the `size_t`
range), and the token buffer respects `ZLANG_TOKSIZ`. -/
def wf (l : LexState) : Prop :=
  l.buf.length = l.B ∧ l.bytesRead ≤ l.B ∧ l.idx ≤ l.bytesRead + 1 ∧
  l.hist.length ≤ l.K ∧ 1 ≤ l.K ∧ l.K + 1 < l.B ∧ l.B < 2 ^ 64 ∧
  l.tbuf.length < TOKSIZ

/-- Lexicographic order on recorded (line, column) positions. -/
def posLe (p q : Nat × Nat) : Prop :=
  p.1 < q.1 ∨ (p.1 = q.1 ∧ p.2 ≤ q.2)

/-- The position bookkeeping of a state. -/
def pos (l : LexState) : Nat × Nat := (l.line, l.col)

/-- Run `n` successive `lexer_get_next` calls, keeping only the state. -/
def nextN : Nat → LexState → Option LexState
  | 0, l => some l
  | n + 1, l =>
    match lexer_get_next l with
    | none => none
    | some p => nextN n p.2

/-- The position the lexer's bookkeeping reports when the `n`-th token's
first significant character becomes current: the recorded (line, column)
after the whitespace skip that opens the (n+1)-st `lexer_get_next` call. -/
def startPosN (l : LexState) (n : Nat) : Option (Nat × Nat) :=
  match nextN n l with
  | none => none
  | some s =>
    match lexer_skip_whitespace (_tbuf_reset s) with
    | none => none
    | some s1 => some (pos s1)

/-- Run `n` successive `lexer_pre_advance` calls, keeping the state. -/
def advIter : Nat → LexState → LexState
  | 0, l => l
  | n + 1, l => advIter n (lexer_pre_advance l).2

/-- Run `n` successive `lexer_unget` calls, keeping the state. -/
def ungIter : Nat → LexState → LexState
  | 0, l => l
  | n + 1, l => ungIter n (lexer_unget l).2

/-- A byte that matches none of `lexer_get_next`'s classification rules:
not a slash, not an identifier head or underscore, not a quote, digit or
dot, none of the one- or two-character operator lead bytes, none of the
recognized single-symbol bytes, and not whitespace.  Such a byte reaches
the `lex_single_symbol` default case. -/
def fallbackByte (b : Nat) : Prop :=
  b ≠ 47 ∧ isalpha b = false ∧ b ≠ 95 ∧ b ≠ 34 ∧ b ≠ 39 ∧
  isdigit b = false ∧ b ≠ 46 ∧ b ≠ 45 ∧ b ≠ 61 ∧ b ≠ 33 ∧ b ≠ 60 ∧
  b ≠ 62 ∧ b ≠ 43 ∧ b ≠ 42 ∧ b ≠ 37 ∧ b ≠ 38 ∧ b ≠ 124 ∧ b ≠ 44 ∧
  b ≠ 40 ∧ b ≠ 41 ∧ b ≠ 91 ∧ b ≠ 93 ∧ b ≠ 123 ∧ b ≠ 125 ∧
  isspace b = false

/-- The next `n` advances are all consuming: before each of them the
current byte is not EOF ("n consecutive successful advance() calls"). -/
def consumesN : Nat → LexState → Bool
  | 0, _ => true
  | n + 1, l =>
    ((lexer_current l).1 != -1) && consumesN n (lexer_pre_advance l).2

end Zen

namespace Zen

theorem posLe_refl (p : Nat × Nat) : posLe p p := Or.inr ⟨rfl, le_rfl⟩

theorem posLe_trans {p q r : Nat × Nat} (h1 : posLe p q) (h2 : posLe q r) :
    posLe p r := by
  rcases h1 with h1 | ⟨e1, c1⟩ <;> rcases h2 with h2 | ⟨e2, c2⟩
  · exact Or.inl (h1.trans h2)
  · exact Or.inl (e2 ▸ h1)
  · exact Or.inl (e1 ▸ h2)
  · exact Or.inr ⟨e1.trans e2, c1.trans c2⟩

theorem length_writeAt {buf data : List Nat} {off : Nat}
    (h : off + data.length ≤ buf.length) :
    (writeAt buf off data).length = buf.length := by
  simp only [writeAt, List.length_append, List.length_take, List.length_drop]
  omega

theorem cstr_length_le (s : List Nat) : (cstr s).length ≤ s.length := by
  induction s with
  | nil => simp [cstr]
  | cons a t ih =>
    simp only [cstr, List.takeWhile_cons] at *
    split
    · simpa using Nat.succ_le_succ ih
    · simp

theorem wf_buf {l : LexState} (h : wf l) : l.buf.length = l.B := h.1

theorem wf_bytesRead {l : LexState} (h : wf l) : l.bytesRead ≤ l.B := h.2.1

theorem wf_idx {l : LexState} (h : wf l) : l.idx ≤ l.bytesRead + 1 := h.2.2.1

theorem wf_hist {l : LexState} (h : wf l) : l.hist.length ≤ l.K := h.2.2.2.1

theorem wf_K {l : LexState} (h : wf l) : 1 ≤ l.K := h.2.2.2.2.1

theorem wf_KB {l : LexState} (h : wf l) : l.K + 1 < l.B := h.2.2.2.2.2.1

theorem wf_B64 {l : LexState} (h : wf l) : l.B < 2 ^ 64 := h.2.2.2.2.2.2.1

theorem wf_tbuf {l : LexState} (h : wf l) : l.tbuf.length < TOKSIZ :=
  h.2.2.2.2.2.2.2

/-- Value of `_ahead` when the cursor is strictly inside the valid
region: no wraparound happens. -/
theorem _ahead_of_lt {l : LexState} (h : wf l) (hix : l.idx < l.bytesRead) :
    _ahead l = l.bytesRead - l.idx - 1 := by
  have hb := wf_bytesRead h
  have h64 := wf_B64 h
  have : 2 ^ 64 + l.bytesRead - (l.idx + 1) = 2 ^ 64 + (l.bytesRead - l.idx - 1) := by
    omega
  rw [_ahead, this, Nat.add_mod_left]
  exact Nat.mod_eq_of_lt (by omega)

/-- Value of `_ahead` when the cursor is at or past the valid region: the
`size_t` subtraction wraps to a huge value (at least `2 ^ 64 - 2`). -/
theorem _ahead_of_ge {l : LexState} (h : wf l) (hix : l.bytesRead ≤ l.idx) :
    2 ^ 64 - 2 ≤ _ahead l := by
  have hb := wf_bytesRead h
  have h64 := wf_B64 h
  have hi := wf_idx h
  have hlt : 2 ^ 64 + l.bytesRead - (l.idx + 1) < 2 ^ 64 := by omega
  rw [_ahead, Nat.mod_eq_of_lt hlt]
  omega

/-- State-level description of `_prime` (called only with
`bytes_read == 0`). -/
theorem _prime_spec {l : LexState} (h : wf l) :
    (_prime l).2.B = l.B ∧ (_prime l).2.K = l.K ∧
    (_prime l).2.idx = l.K ∧ (_prime l).2.bytesRead = l.K + (_prime l).1 ∧
    (_prime l).2.line = l.line ∧ (_prime l).2.col = l.col ∧
    (_prime l).2.tbuf = l.tbuf ∧ (_prime l).2.hist = l.hist ∧
    (_prime l).2.buf.length = l.B ∧
    (_prime l).1 = min (l.B - l.K) l.fp.length ∧
    (_prime l).2.fp = l.fp.drop (_prime l).1 := by
  have hb := wf_buf h
  have hkb := wf_KB h
  have hlen1 : (writeAt l.buf 0 (List.replicate l.K 0)).length = l.B := by
    rw [length_writeAt]
    · exact hb
    · simp only [List.length_replicate]
      omega
  constructor; · rfl
  constructor; · rfl
  constructor; · rfl
  constructor; · rfl
  constructor; · rfl
  constructor; · rfl
  constructor; · rfl
  constructor; · rfl
  constructor
  · show (writeAt _ l.K (l.fp.take _)).length = l.B
    rw [length_writeAt] <;> rw [hlen1]
    simp only [List.length_take]
    omega
  exact ⟨rfl, rfl⟩

/-- `wf` is preserved by `_prime`, and `avail` is unchanged when the
state was unprimed (`bytes_read == 0`, hence `idx` contributes nothing to
`avail`). -/
theorem _prime_wf {l : LexState} (h : wf l) (h0 : l.bytesRead = 0) :
    wf (_prime l).2 ∧ avail (_prime l).2 = avail l := by
  obtain ⟨hB, hK, hidx, hbr, hline, hcol, htb, hh, hbuf, hgot, hfp⟩ := _prime_spec h
  have hkb := wf_KB h
  have hfl : (_prime l).1 ≤ l.fp.length := by rw [hgot]; exact Nat.min_le_right _ _
  constructor
  · refine ⟨?_, ?_, ?_, ?_, ?_, ?_, ?_, ?_⟩
    · rw [hbuf, hB]
    · rw [hbr, hB, hgot]; omega
    · rw [hidx, hbr]; omega
    · rw [hh, hK]; exact wf_hist h
    · rw [hK]; exact wf_K h
    · rw [hK, hB]; exact hkb
    · rw [hB]; exact wf_B64 h
    · rw [htb]; exact wf_tbuf h
  · simp only [avail, hidx, hbr, hfp, h0, List.length_drop]
    omega

/-- Field-level description of `_slide_refill` that does not depend on
which branches its internal ifs take. -/
theorem _slide_refill_easy (l : LexState) :
    (_slide_refill l).2.idx = l.K ∧ (_slide_refill l).2.line = l.line ∧
    (_slide_refill l).2.col = l.col ∧ (_slide_refill l).2.tbuf = l.tbuf ∧
    (_slide_refill l).2.hist = l.hist ∧ (_slide_refill l).2.B = l.B ∧
    (_slide_refill l).2.K = l.K ∧
    (_slide_refill l).2.bytesRead =
      l.K + 1 + (l.bytesRead - (l.idx + 1)) + (_slide_refill l).1 ∧
    (_slide_refill l).2.fp = l.fp.drop (_slide_refill l).1 := by
  refine ⟨?_, ?_, ?_, ?_, ?_, ?_, ?_, ?_, ?_⟩ <;>
    first
    | rfl
    | simp [_slide_refill]

/-- Bounds on the byte count returned by `_slide_refill`. -/
theorem _slide_refill_got (l : LexState) :
    (_slide_refill l).1 ≤ l.B - (l.K + 1 + (l.bytesRead - (l.idx + 1))) ∧
    (_slide_refill l).1 ≤ l.fp.length := by
  have h1 : (_slide_refill l).1 =
      min (if l.K + 1 + (l.bytesRead - (l.idx + 1)) < l.B
           then l.B - (l.K + 1 + (l.bytesRead - (l.idx + 1))) else 0)
        l.fp.length := rfl
  constructor <;> rw [h1] <;> split <;> omega

/-- The buffer keeps its capacity across `_slide_refill` whenever the
retained region plus the tail fit. -/
theorem _slide_refill_buflen {l : LexState} (hb : l.buf.length = l.B)
    (hix : l.idx < l.bytesRead) (hbr : l.bytesRead ≤ l.B)
    (hroom : l.K + 1 + (l.bytesRead - (l.idx + 1)) ≤ l.B) :
    (_slide_refill l).2.buf.length = l.B := by
  simp only [_slide_refill]
  repeat' split
  all_goals
    try simp only [writeAt, List.length_append, List.length_take,
      List.length_drop]
  all_goals omega

/-- State-level description of `_slide_refill` in the situation in which
`_ensure_ahead` actually calls it (the cursor sits on the last valid
byte, so the unread tail is empty): well-formedness and `avail` are
preserved, the observable position/token state is untouched, and the
cursor lands at offset `K`, strictly inside the valid region. -/
theorem _slide_refill_wf {l : LexState} (h : wf l)
    (hix : l.idx + 1 = l.bytesRead) :
    wf (_slide_refill l).2 ∧ avail (_slide_refill l).2 = avail l ∧
    (_slide_refill l).2.line = l.line ∧ (_slide_refill l).2.col = l.col ∧
    (_slide_refill l).2.tbuf = l.tbuf ∧ (_slide_refill l).2.hist = l.hist ∧
    (_slide_refill l).2.B = l.B ∧ (_slide_refill l).2.K = l.K ∧
    (_slide_refill l).2.idx = l.K ∧
    (_slide_refill l).2.idx < (_slide_refill l).2.bytesRead := by
  obtain ⟨he1, he2, he3, he4, he5, he6, he7, he8, he9⟩ := _slide_refill_easy l
  obtain ⟨hg1, hg2⟩ := _slide_refill_got l
  have hkb := wf_KB h
  have htail : l.bytesRead - (l.idx + 1) = 0 := by omega
  have hblen : (_slide_refill l).2.buf.length = l.B :=
    _slide_refill_buflen (wf_buf h) (by omega) (wf_bytesRead h) (by omega)
  refine ⟨⟨?_, ?_, ?_, ?_, ?_, ?_, ?_, ?_⟩, ?_, he2, he3, he4, he5, he6, he7,
    he1, ?_⟩
  · rw [hblen, he6]
  · rw [he8, he6]; omega
  · rw [he1, he8]; omega
  · rw [he5, he7]; exact wf_hist h
  · rw [he7]; exact wf_K h
  · rw [he7, he6]; exact hkb
  · rw [he6]; exact wf_B64 h
  · rw [he4]; exact wf_tbuf h
  · simp only [avail, he1, he8, he9, List.length_drop]
    omega
  · rw [he1, he8]; omega

end Zen

namespace Zen

/-- State-level description of `_push_pos`: only the history changes; it
stays bounded, becomes non-empty, and its newest entry is the pushed
position. -/
theorem _push_pos_spec {l : LexState} (hh : l.hist.length ≤ l.K)
    (hk : 1 ≤ l.K) :
    (_push_pos l).B = l.B ∧ (_push_pos l).K = l.K ∧
    (_push_pos l).fp = l.fp ∧ (_push_pos l).buf = l.buf ∧
    (_push_pos l).idx = l.idx ∧ (_push_pos l).bytesRead = l.bytesRead ∧
    (_push_pos l).line = l.line ∧ (_push_pos l).col = l.col ∧
    (_push_pos l).tbuf = l.tbuf ∧
    (_push_pos l).hist.length ≤ l.K ∧ (_push_pos l).hist ≠ [] ∧
    (_push_pos l).hist.getLastD (0, 0) = (l.line, l.col) := by
  unfold _push_pos
  split
  · rename_i hfull
    refine ⟨rfl, rfl, rfl, rfl, rfl, rfl, rfl, rfl, rfl, ?_, ?_, ?_⟩
    · simp only [List.length_append, List.length_drop, List.length_singleton]
      omega
    · simp
    · exact List.getLastD_concat _ _ _
  · refine ⟨rfl, rfl, rfl, rfl, rfl, rfl, rfl, rfl, rfl, ?_, ?_, ?_⟩
    · rename_i hne
      simp only [List.length_append, List.length_singleton]
      omega
    · simp
    · exact List.getLastD_concat _ _ _

/-- State-level description of `_ensure_ahead` with the one-byte demand
used everywhere in `lexer.c`: well-formedness, `avail` and the observable
position/token state are preserved, the cursor-in-range facts transfer,
and a true result guarantees a byte of lookahead when the cursor is in
range. -/
theorem _ensure_ahead_spec {l : LexState} (h : wf l) :
    wf (_ensure_ahead l 1).2 ∧ avail (_ensure_ahead l 1).2 = avail l ∧
    (_ensure_ahead l 1).2.line = l.line ∧
    (_ensure_ahead l 1).2.col = l.col ∧
    (_ensure_ahead l 1).2.tbuf = l.tbuf ∧
    (_ensure_ahead l 1).2.hist = l.hist ∧
    (_ensure_ahead l 1).2.B = l.B ∧ (_ensure_ahead l 1).2.K = l.K ∧
    (l.idx ≤ l.bytesRead → (_ensure_ahead l 1).2.idx ≤ (_ensure_ahead l 1).2.bytesRead) ∧
    (l.idx < l.bytesRead → (_ensure_ahead l 1).2.idx < (_ensure_ahead l 1).2.bytesRead) ∧
    ((_ensure_ahead l 1).1 = true → (_ensure_ahead l 1).2.idx < (_ensure_ahead l 1).2.bytesRead →
      (_ensure_ahead l 1).2.idx + 1 < (_ensure_ahead l 1).2.bytesRead) ∧
    (l.bytesRead ≠ 0 → (_ensure_ahead l 1).2.bytesRead ≠ 0) := by
  by_cases ha : 1 ≤ _ahead l
  · have he : _ensure_ahead l 1 = (true, l) := by
      unfold _ensure_ahead
      rw [if_pos ha]
    rw [he]
    dsimp only
    refine ⟨h, rfl, rfl, rfl, rfl, rfl, rfl, rfl, id, id, ?_, id⟩
    intro _ hlt
    have := _ahead_of_lt h hlt
    omega
  · by_cases hz : l.bytesRead = 0
    · have he : _ensure_ahead l 1 = (false, l) := by
        unfold _ensure_ahead
        rw [if_neg ha, if_pos hz]
      rw [he]
      dsimp only
      exact ⟨h, rfl, rfl, rfl, rfl, rfl, rfl, rfl, id, id,
        fun hc => absurd hc (by simp), id⟩
    · have hlt : l.idx < l.bytesRead := by
        by_contra hc
        have := _ahead_of_ge h (by omega)
        omega
      have hone : l.idx + 1 = l.bytesRead := by
        have := _ahead_of_lt h hlt
        omega
      have he : _ensure_ahead l 1 =
          (decide (1 ≤ _ahead (_slide_refill l).2), (_slide_refill l).2) := by
        unfold _ensure_ahead
        rw [if_neg ha, if_neg hz]
        rcases hr : _slide_refill l with ⟨got, l1⟩
        by_cases hg : got = 0 <;> simp [hg]
      obtain ⟨hw, hav, hline, hcol, htb, hhist, hB, hK, hidx9, hix⟩ :=
        _slide_refill_wf h hone
      rw [he]
      dsimp only
      refine ⟨hw, hav, hline, hcol, htb, hhist, hB, hK, fun _ => le_of_lt hix,
        fun _ => hix, ?_, fun _ => by omega⟩
      intro hok hlt2
      have hgt : (1 : Nat) ≤ _ahead (_slide_refill l).2 := of_decide_eq_true hok
      have := _ahead_of_lt hw hlt2
      omega

/-- State-level description of `lexer_current`: the state changes only by
priming (position, token buffer and history are untouched, `avail` is
preserved, well-formedness holds), a non-EOF result is the byte under the
(possibly repositioned) cursor, which then lies strictly inside the valid
region, and an already-primed state is returned unchanged. -/
theorem lexer_current_spec {l : LexState} (h : wf l) :
    wf (lexer_current l).2 ∧ avail (lexer_current l).2 = avail l ∧
    (lexer_current l).2.line = l.line ∧ (lexer_current l).2.col = l.col ∧
    (lexer_current l).2.tbuf = l.tbuf ∧ (lexer_current l).2.hist = l.hist ∧
    (lexer_current l).2.B = l.B ∧ (lexer_current l).2.K = l.K ∧
    (l.bytesRead ≠ 0 → (lexer_current l).2 = l) ∧
    ((lexer_current l).1 ≠ -1 →
      (lexer_current l).2.idx < (lexer_current l).2.bytesRead ∧
      (lexer_current l).2.bytesRead ≠ 0 ∧
      (lexer_current l).1 =
        (((lexer_current l).2.buf.getD (lexer_current l).2.idx 0 : Nat) : Int)) ∧
    ((lexer_current l).1 = -1 →
      (lexer_current l).2.bytesRead ≤ (lexer_current l).2.idx ∨
      (lexer_current l).2.bytesRead = 0) := by
  by_cases hz : l.bytesRead = 0
  · obtain ⟨hB, hK, hidx, hbr, hline, hcol, htb, hh, hbuf, hgot, hfp⟩ :=
      _prime_spec h
    obtain ⟨hw, hav⟩ := _prime_wf h hz
    rcases hp : _prime l with ⟨got, l1⟩
    have hgot1 : (_prime l).1 = got := by rw [hp]
    have hl1 : (_prime l).2 = l1 := by rw [hp]
    rw [hl1] at hB hK hidx hbr hline hcol htb hh hbuf hfp hw hav
    rw [hgot1] at hbr hgot hfp
    by_cases hg : got = 0
    · have he : lexer_current l = (-1, l1) := by
        unfold lexer_current
        rw [if_pos hz, hp]
        simp [hg]
      rw [he]
      dsimp only
      refine ⟨hw, hav, hline, hcol, htb, hh, hB, hK, fun hc => absurd hz hc,
        fun hc => absurd rfl hc, fun _ => ?_⟩
      left
      rw [hidx, hbr, hg]
      omega
    · have hfull : ¬ _buf_full l1 := by
        simp only [_buf_full, hidx, hbr]
        simp only [decide_eq_true_eq, not_le]
        omega
      have he : lexer_current l = (((l1.buf.getD l1.idx 0 : Nat) : Int), l1) := by
        unfold lexer_current
        rw [if_pos hz, hp]
        simp only [hg, if_neg hg, ite_false]
        rw [if_neg (by simpa using hfull)]
      rw [he]
      dsimp only
      refine ⟨hw, hav, hline, hcol, htb, hh, hB, hK, fun hc => absurd hz hc,
        fun _ => ⟨?_, ?_, rfl⟩, fun hc => ?_⟩
      · rw [hidx, hbr]; omega
      · rw [hbr]; omega
      · exfalso
        have : ((l1.buf.getD l1.idx 0 : Nat) : Int) ≥ 0 := Int.ofNat_nonneg _
        omega
  · by_cases hfull : _buf_full l
    · have he : lexer_current l = (-1, l) := by
        unfold lexer_current
        rw [if_neg hz, if_pos hfull]
      rw [he]
      dsimp only
      refine ⟨h, rfl, rfl, rfl, rfl, rfl, rfl, rfl, fun _ => rfl,
        fun hc => absurd rfl hc, fun _ => ?_⟩
      left
      simpa [_buf_full] using hfull
    · have he : lexer_current l = (((l.buf.getD l.idx 0 : Nat) : Int), l) := by
        unfold lexer_current
        rw [if_neg hz, if_neg hfull]
      rw [he]
      dsimp only
      refine ⟨h, rfl, rfl, rfl, rfl, rfl, rfl, rfl, fun _ => rfl,
        fun _ => ⟨?_, hz, rfl⟩, fun hc => ?_⟩
      · have := hfull
        simp only [_buf_full, decide_eq_true_eq, not_le] at this
        exact this
      · exfalso
        have : ((l.buf.getD l.idx 0 : Nat) : Int) ≥ 0 := Int.ofNat_nonneg _
        omega

end Zen

namespace Zen

/-- Frame lemma for `_tbuf_put`: only the token buffer changes, and it
stays within the `ZLANG_TOKSIZ` bound. -/
theorem _tbuf_put_spec (l : LexState) (ch : Int) :
    (_tbuf_put l ch).B = l.B ∧ (_tbuf_put l ch).K = l.K ∧
    (_tbuf_put l ch).fp = l.fp ∧ (_tbuf_put l ch).buf = l.buf ∧
    (_tbuf_put l ch).idx = l.idx ∧ (_tbuf_put l ch).bytesRead = l.bytesRead ∧
    (_tbuf_put l ch).line = l.line ∧ (_tbuf_put l ch).col = l.col ∧
    (_tbuf_put l ch).hist = l.hist ∧
    (l.tbuf.length < TOKSIZ → (_tbuf_put l ch).tbuf.length < TOKSIZ) := by
  unfold _tbuf_put
  split
  · refine ⟨rfl, rfl, rfl, rfl, rfl, rfl, rfl, rfl, rfl, ?_⟩
    intro _
    rename_i hroom
    simpa using by omega
  · exact ⟨rfl, rfl, rfl, rfl, rfl, rfl, rfl, rfl, rfl, fun hh => hh⟩

/-- Well-formedness and `avail` are untouched by `_tbuf_put`. -/
theorem _tbuf_put_wf {l : LexState} (h : wf l) (ch : Int) :
    wf (_tbuf_put l ch) ∧ avail (_tbuf_put l ch) = avail l := by
  obtain ⟨hB, hK, hfp, hbuf, hidx, hbr, hline, hcol, hh, ht⟩ :=
    _tbuf_put_spec l ch
  constructor
  · refine ⟨?_, ?_, ?_, ?_, ?_, ?_, ?_, ?_⟩
    · rw [hbuf, hB]; exact wf_buf h
    · rw [hbr, hB]; exact wf_bytesRead h
    · rw [hidx, hbr]; exact wf_idx h
    · rw [hh, hK]; exact wf_hist h
    · rw [hK]; exact wf_K h
    · rw [hK, hB]; exact wf_KB h
    · rw [hB]; exact wf_B64 h
    · exact ht (wf_tbuf h)
  · simp only [avail, hidx, hbr, hfp]

/-- Failure cases of `lexer_unget`: empty history or cursor at buffer
start give a no-op false return. -/
theorem lexer_unget_fail {l : LexState} (hc : l.hist = [] ∨ l.idx = 0) :
    lexer_unget l = (false, l) := by
  unfold lexer_unget
  rcases hc with hc | hc
  · rw [if_pos (by simp [hc])]
  · by_cases hh : l.hist.length = 0
    · rw [if_pos hh]
    · rw [if_neg hh, if_pos hc]

/-- Success case of `lexer_unget`: pop the newest history entry, restore
line/column from it, and step the cursor back. -/
theorem lexer_unget_succ {l : LexState} (hh : l.hist ≠ []) (hi : l.idx ≠ 0) :
    lexer_unget l =
      (true,
       { l with
          idx := l.idx - 1
          line := (l.hist.getLastD (0, 0)).1
          col := (l.hist.getLastD (0, 0)).2
          hist := l.hist.dropLast }) := by
  unfold lexer_unget
  rw [if_neg (by simpa using hh), if_neg hi]

/-- `lexer_unget` preserves well-formedness. -/
theorem lexer_unget_wf {l : LexState} (h : wf l) : wf (lexer_unget l).2 := by
  by_cases hh : l.hist = []
  · rw [lexer_unget_fail (Or.inl hh)]; exact h
  · by_cases hi : l.idx = 0
    · rw [lexer_unget_fail (Or.inr hi)]; exact h
    · rw [lexer_unget_succ hh hi]
      dsimp only
      unfold wf
      dsimp only
      refine ⟨?_, ?_, ?_, ?_, ?_, ?_, ?_, ?_⟩
      · exact wf_buf h
      · exact wf_bytesRead h
      · have := wf_idx h; omega
      · have := wf_hist h
        calc l.hist.dropLast.length ≤ l.hist.length := by
              rw [List.length_dropLast]; omega
          _ ≤ l.K := this
      · exact wf_K h
      · exact wf_KB h
      · exact wf_B64 h
      · exact wf_tbuf h

/-- The byte under the cursor of a primed, non-exhausted state, with the
state returned unchanged. -/
theorem lexer_current_val {l : LexState} (hz : l.bytesRead ≠ 0)
    (hix : l.idx < l.bytesRead) :
    lexer_current l = (((l.buf.getD l.idx 0 : Nat) : Int), l) := by
  unfold lexer_current
  rw [if_neg hz, if_neg (by simp only [_buf_full]; simpa using by omega)]

/-- State-level description of `_pre_advance_core` (reached with a primed
state): well-formedness is preserved, `avail` never grows, the recorded
position never moves backwards, the token buffer is untouched; when the
cursor is strictly inside the valid region the call consumes exactly one
byte, keeps the cursor within the valid region, pushes the pre-move
position as the newest history entry, and either increments the cursor or
lands it at offset `K + 1` after a refill. -/
theorem _pre_advance_core_spec {l : LexState} (h : wf l)
    (hix : l.idx ≤ l.bytesRead) (hz : l.bytesRead ≠ 0) :
    wf (_pre_advance_core l).2 ∧
    avail (_pre_advance_core l).2 ≤ avail l ∧
    posLe (pos l) (pos (_pre_advance_core l).2) ∧
    (_pre_advance_core l).2.tbuf = l.tbuf ∧
    (_pre_advance_core l).2.B = l.B ∧ (_pre_advance_core l).2.K = l.K ∧
    (l.idx < l.bytesRead →
      avail (_pre_advance_core l).2 + 1 = avail l ∧
      (_pre_advance_core l).2.idx ≤ (_pre_advance_core l).2.bytesRead ∧
      ((_pre_advance_core l).2.idx = l.idx + 1 ∨
        (_pre_advance_core l).2.idx = l.K + 1) ∧
      (_pre_advance_core l).2.hist =
        (if l.hist.length = l.K then l.hist.drop 1 else l.hist) ++
          [(l.line, l.col)]) := by
  obtain ⟨ew, eav, eline, ecol, etb, ehist, eB, eK, etr1, etr2, eok, ez⟩ :=
    _ensure_ahead_spec h
  rcases hens : _ensure_ahead l 1 with ⟨ok, l2⟩
  rw [hens] at ew eav eline ecol etb ehist eB eK etr1 etr2 eok ez
  dsimp only at ew eav eline ecol etb ehist eB eK etr1 etr2 eok ez
  have hl2ix : l2.idx ≤ l2.bytesRead := etr1 hix
  have eav2 : l2.bytesRead - l2.idx + l2.fp.length =
      l.bytesRead - l.idx + l.fp.length := by
    simpa only [avail] using eav
  obtain ⟨pB, pK, pfp, pbuf, pidx, pbr, pline, pcol, ptb, phl, phn, phlast⟩ :=
    _push_pos_spec (wf_hist ew) (wf_K ew)
  have hpush : _push_pos l2 =
      { l2 with hist := (_push_pos l2).hist } := by
    unfold _push_pos
    split <;> rfl
  have hhist2 : (_push_pos l2).hist =
      (if l.hist.length = l.K then l.hist.drop 1 else l.hist) ++
        [(l.line, l.col)] := by
    unfold _push_pos
    rw [ehist, eK, eline, ecol]
    split <;> rfl
  have hphl : (_push_pos l2).hist.length ≤ l2.K := phl
  have refl_idx : l2.idx = l.idx ∨ l2.idx = l.K := by
    by_cases ha : 1 ≤ _ahead l
    · left
      have hq : _ensure_ahead l 1 = (true, l) := by
        unfold _ensure_ahead
        rw [if_pos ha]
      rw [hq] at hens
      cases hens
      rfl
    · by_cases hbz : l.bytesRead = 0
      · exact absurd hbz hz
      · right
        have he2 : _ensure_ahead l 1 =
            (decide (1 ≤ _ahead (_slide_refill l).2), (_slide_refill l).2) := by
          unfold _ensure_ahead
          rw [if_neg ha, if_neg hbz]
          rcases hr : _slide_refill l with ⟨got, l9⟩
          by_cases hg : got = 0 <;> simp [hg]
        rw [he2] at hens
        cases hens
        exact (_slide_refill_easy l).1
  unfold _pre_advance_core
  rw [hens]
  dsimp only
  by_cases hok : ok = true
  · rw [if_pos hok]
    rw [hpush]
    split <;> rename_i hnl <;>
      refine ⟨⟨?_, ?_, ?_, ?_, ?_, ?_, ?_, ?_⟩, ?_, ?_, ?_, ?_, ?_, ?_⟩ <;>
      dsimp only
    · exact wf_buf ew
    · exact wf_bytesRead ew
    · omega
    · exact hphl
    · exact wf_K ew
    · exact wf_KB ew
    · exact wf_B64 ew
    · exact wf_tbuf ew
    · simp only [avail]
      omega
    · simp only [pos, posLe]
      omega
    · exact etb
    · exact eB
    · exact eK
    · intro hlt
      have hlt2 := etr2 hlt
      refine ⟨?_, ?_, ?_, hhist2⟩
      · simp only [avail]
        omega
      · omega
      · omega
    · exact wf_buf ew
    · exact wf_bytesRead ew
    · omega
    · exact hphl
    · exact wf_K ew
    · exact wf_KB ew
    · exact wf_B64 ew
    · exact wf_tbuf ew
    · simp only [avail]
      omega
    · simp only [pos, posLe]
      omega
    · exact etb
    · exact eB
    · exact eK
    · intro hlt
      have hlt2 := etr2 hlt
      refine ⟨?_, ?_, ?_, hhist2⟩
      · simp only [avail]
        omega
      · omega
      · omega
  · rw [if_neg hok]
    by_cases hfull : _buf_full l2
    · rw [if_pos hfull]
      have hfull2 : l2.bytesRead ≤ l2.idx := by
        simpa [_buf_full] using hfull
      dsimp only
      refine ⟨ew, le_of_eq eav, ?_, etb, eB, eK, ?_⟩
      · simp only [pos, posLe]
        omega
      · intro hlt
        exact absurd (etr2 hlt) (by omega)
    · rw [if_neg hfull]
      have hfull2 : l2.idx < l2.bytesRead := by
        simp only [_buf_full, decide_eq_true_eq, not_le] at hfull
        exact hfull
      rw [hpush]
      split <;> rename_i hnl <;>
        refine ⟨⟨?_, ?_, ?_, ?_, ?_, ?_, ?_, ?_⟩, ?_, ?_, ?_, ?_, ?_, ?_⟩ <;>
        dsimp only
      · exact wf_buf ew
      · exact wf_bytesRead ew
      · omega
      · exact hphl
      · exact wf_K ew
      · exact wf_KB ew
      · exact wf_B64 ew
      · exact wf_tbuf ew
      · simp only [avail]
        omega
      · simp only [pos, posLe]
        omega
      · exact etb
      · exact eB
      · exact eK
      · intro hlt
        refine ⟨?_, ?_, ?_, hhist2⟩
        · simp only [avail]
          omega
        · omega
        · omega
      · exact wf_buf ew
      · exact wf_bytesRead ew
      · omega
      · exact hphl
      · exact wf_K ew
      · exact wf_KB ew
      · exact wf_B64 ew
      · exact wf_tbuf ew
      · simp only [avail]
        omega
      · simp only [pos, posLe]
        omega
      · exact etb
      · exact eB
      · exact eK
      · intro hlt
        refine ⟨?_, ?_, ?_, hhist2⟩
        · simp only [avail]
          omega
        · omega
        · omega

end Zen

namespace Zen

/-- A primed state passes through `lexer_current` unchanged. -/
theorem lexer_current_state_of_primed {l : LexState} (hz : l.bytesRead ≠ 0) :
    (lexer_current l).2 = l := by
  unfold lexer_current
  rw [if_neg hz]
  split <;> rfl

/-- State-level description of `lexer_pre_advance`: as
`_pre_advance_core_spec`, with the consuming case guarded by the current
byte not being EOF. -/
theorem lexer_pre_advance_spec {l : LexState} (h : wf l)
    (hix : l.idx ≤ l.bytesRead) :
    wf (lexer_pre_advance l).2 ∧
    avail (lexer_pre_advance l).2 ≤ avail l ∧
    posLe (pos l) (pos (lexer_pre_advance l).2) ∧
    (lexer_pre_advance l).2.tbuf = l.tbuf ∧
    (lexer_pre_advance l).2.B = l.B ∧ (lexer_pre_advance l).2.K = l.K ∧
    ((lexer_current l).1 ≠ -1 →
      avail (lexer_pre_advance l).2 + 1 = avail l ∧
      (lexer_pre_advance l).2.idx ≤ (lexer_pre_advance l).2.bytesRead ∧
      ((lexer_pre_advance l).2.idx = l.idx + 1 ∨
        (lexer_pre_advance l).2.idx = l.K + 1) ∧
      (lexer_pre_advance l).2.hist =
        (if l.hist.length = l.K then l.hist.drop 1 else l.hist) ++
          [(l.line, l.col)]) := by
  by_cases hz : l.bytesRead = 0
  · obtain ⟨pB, pK, pidx, pbr, pline, pcol, ptb, ph, pbuf, pgot, pfp⟩ :=
      _prime_spec h
    obtain ⟨pw, pav⟩ := _prime_wf h hz
    rcases hp : _prime l with ⟨got, l1⟩
    rw [hp] at pB pK pidx pbr pline pcol ptb ph pbuf pgot pfp pw pav
    dsimp only at pB pK pidx pbr pline pcol ptb ph pbuf pgot pfp pw pav
    have hcur : lexer_current l =
        (if got = 0 then (-1, l1)
         else if _buf_full l1 then (-1, l1)
         else (((l1.buf.getD l1.idx 0 : Nat) : Int), l1)) := by
      unfold lexer_current
      rw [if_pos hz, hp]
    unfold lexer_pre_advance
    rw [if_pos hz, hp]
    dsimp only
    by_cases hg : got = 0
    · rw [if_pos hg]
      rw [if_pos hg] at hcur
      refine ⟨pw, le_of_eq pav, ?_, ptb, pB, pK, ?_⟩
      · simp only [pos, posLe]
        omega
      · intro hne
        rw [hcur] at hne
        exact absurd rfl hne
    · rw [if_neg hg]
      have hK1 : 1 ≤ l.K := wf_K h
      have hl1ix : l1.idx < l1.bytesRead := by rw [pidx, pbr]; omega
      have hl1z : l1.bytesRead ≠ 0 := by rw [pbr]; omega
      obtain ⟨cw, cav, cpos, ctb, cB, cK, ccons⟩ :=
        _pre_advance_core_spec pw (le_of_lt hl1ix) hl1z
      obtain ⟨q1, q2, q3, q4⟩ := ccons hl1ix
      refine ⟨cw, ?_, ?_, ?_, ?_, ?_, ?_⟩
      · omega
      · refine posLe_trans ?_ cpos
        simp only [pos, posLe]
        omega
      · rw [ctb, ptb]
      · rw [cB, pB]
      · rw [cK, pK]
      · intro _
        refine ⟨by omega, q2, ?_, ?_⟩
        · right
          rcases q3 with q3 | q3 <;> omega
        · rw [q4, ph, pK, pline, pcol]
  · unfold lexer_pre_advance
    rw [if_neg hz]
    obtain ⟨cw, cav, cpos, ctb, cB, cK, ccons⟩ :=
      _pre_advance_core_spec h hix hz
    refine ⟨cw, cav, cpos, ctb, cB, cK, ?_⟩
    intro hne
    obtain ⟨_, _, _, _, _, _, _, _, h9, h10, _⟩ := lexer_current_spec h
    obtain ⟨ha, _, _⟩ := h10 hne
    rw [h9 hz] at ha
    exact ccons ha

/-- The state evolution of `_post_advance_core` coincides with that of
`_pre_advance_core` on a primed state (the extra `lexer_current` read
does not change a primed state, and the rest of the code is the same
modulo the returned value). -/
theorem _post_advance_core_state {l : LexState} (hz : l.bytesRead ≠ 0) :
    (_post_advance_core l).2 = (_pre_advance_core l).2 := by
  have h9 : (lexer_current l).2 = l := lexer_current_state_of_primed hz
  unfold _post_advance_core _pre_advance_core
  rcases hc : lexer_current l with ⟨c, l1⟩
  rw [hc] at h9
  dsimp only at h9
  subst h9
  dsimp only
  rcases hens : _ensure_ahead l1 1 with ⟨ok, l2⟩
  dsimp only
  split_ifs <;> rfl

/-- The state evolution of `lexer_post_advance` coincides with that of
`lexer_pre_advance`. -/
theorem lexer_post_advance_state {l : LexState} (h : wf l) :
    (lexer_post_advance l).2 = (lexer_pre_advance l).2 := by
  unfold lexer_post_advance lexer_pre_advance
  by_cases hz : l.bytesRead = 0
  · rw [if_pos hz, if_pos hz]
    obtain ⟨pB, pK, pidx, pbr, pline, pcol, ptb, ph, pbuf, pgot, pfp⟩ :=
      _prime_spec h
    rcases hp : _prime l with ⟨got, l1⟩
    rw [hp] at pbr pK
    dsimp only at pbr pK
    dsimp only
    by_cases hg : got = 0
    · rw [if_pos hg, if_pos hg]
    · rw [if_neg hg, if_neg hg]
      have : l1.bytesRead ≠ 0 := by
        rw [pbr]
        have := wf_K h
        omega
      exact _post_advance_core_state this
  · rw [if_neg hz, if_neg hz]
    exact _post_advance_core_state hz

/-- State-level description of `lexer_peek`: priming or refilling aside,
the state is observationally unchanged; a non-EOF result guarantees a
byte of lookahead past the (possibly repositioned) cursor. -/
theorem lexer_peek_spec {l : LexState} (h : wf l) :
    wf (lexer_peek l).2 ∧ avail (lexer_peek l).2 = avail l ∧
    (lexer_peek l).2.line = l.line ∧ (lexer_peek l).2.col = l.col ∧
    (lexer_peek l).2.tbuf = l.tbuf ∧ (lexer_peek l).2.hist = l.hist ∧
    (lexer_peek l).2.B = l.B ∧ (lexer_peek l).2.K = l.K ∧
    (l.idx ≤ l.bytesRead → (lexer_peek l).2.idx ≤ (lexer_peek l).2.bytesRead) ∧
    (l.idx < l.bytesRead → (lexer_peek l).2.idx < (lexer_peek l).2.bytesRead) ∧
    ((lexer_peek l).1 ≠ -1 →
      (lexer_peek l).2.idx < (lexer_peek l).2.bytesRead →
      (lexer_peek l).2.idx + 1 < (lexer_peek l).2.bytesRead) := by
  by_cases hz : l.bytesRead = 0
  · obtain ⟨pB, pK, pidx, pbr, pline, pcol, ptb, ph, pbuf, pgot, pfp⟩ :=
      _prime_spec h
    obtain ⟨pw, pav⟩ := _prime_wf h hz
    rcases hp : _prime l with ⟨got, l1⟩
    rw [hp] at pB pK pidx pbr pline pcol ptb ph pbuf pgot pfp pw pav
    dsimp only at pB pK pidx pbr pline pcol ptb ph pbuf pgot pfp pw pav
    unfold lexer_peek
    rw [if_pos hz, hp]
    dsimp only
    by_cases hg : got = 0
    · rw [if_pos hg]
      refine ⟨pw, pav, pline, pcol, ptb, ph, pB, pK, fun _ => ?_, fun _ => ?_,
        fun hc _ => absurd rfl hc⟩
      · rw [pidx, pbr]; omega
      · rw [pidx, pbr]
        have := wf_K h
        omega
    · rw [if_neg hg]
      obtain ⟨ew, eav, eline, ecol, etb, ehist, eB, eK, etr1, etr2, eok, ez⟩ :=
        _ensure_ahead_spec pw
    
      simp only [LOOKAHEAD]
      rcases hens : _ensure_ahead l1 1 with ⟨ok, l2⟩
      rw [hens] at ew eav eline ecol etb ehist eB eK etr1 etr2 eok ez
      dsimp only at ew eav eline ecol etb ehist eB eK etr1 etr2 eok ez
      have hl1ix : l1.idx < l1.bytesRead := by
        rw [pidx, pbr]
        have := wf_K h
        omega
      dsimp only
      by_cases hok : ok = true
      · rw [if_pos hok]
        refine ⟨ew, by dsimp only; omega, by rw [eline, pline], by rw [ecol, pcol],
          by rw [etb, ptb], by rw [ehist, ph], by rw [eB, pB],
          by rw [eK, pK], fun _ => le_of_lt (etr2 hl1ix), fun _ => etr2 hl1ix,
          fun _ => eok hok⟩
      · rw [if_neg hok]
        refine ⟨ew, by dsimp only; omega, by rw [eline, pline], by rw [ecol, pcol],
          by rw [etb, ptb], by rw [ehist, ph], by rw [eB, pB],
          by rw [eK, pK], fun _ => le_of_lt (etr2 hl1ix), fun _ => etr2 hl1ix,
          fun hc => absurd rfl hc⟩
  · obtain ⟨ew, eav, eline, ecol, etb, ehist, eB, eK, etr1, etr2, eok, ez⟩ :=
      _ensure_ahead_spec h
    unfold lexer_peek
    rw [if_neg hz]
    simp only [LOOKAHEAD]
    rcases hens : _ensure_ahead l 1 with ⟨ok, l2⟩
    rw [hens] at ew eav eline ecol etb ehist eB eK etr1 etr2 eok ez
    dsimp only at ew eav eline ecol etb ehist eB eK etr1 etr2 eok ez
    dsimp only
    by_cases hok : ok = true
    · rw [if_pos hok]
      exact ⟨ew, eav, eline, ecol, etb, ehist, eB, eK, etr1, etr2,
        fun _ => eok hok⟩
    · rw [if_neg hok]
      exact ⟨ew, eav, eline, ecol, etb, ehist, eB, eK, etr1, etr2,
        fun hc => absurd rfl hc⟩

/-- A single `lexer_skip` step is exactly one `lexer_pre_advance`. -/
theorem lexer_skip_one_eq (l : LexState) :
    lexer_skip l 1 = (lexer_pre_advance l).2 := by
  unfold lexer_skip
  rcases hp : lexer_pre_advance l with ⟨c, l1⟩
  dsimp only
  split <;> rfl

/-- State-level description of `lexer_skip l 1`. -/
theorem lexer_skip_one_spec {l : LexState} (h : wf l)
    (hix : l.idx ≤ l.bytesRead) :
    wf (lexer_skip l 1) ∧ avail (lexer_skip l 1) ≤ avail l ∧
    posLe (pos l) (pos (lexer_skip l 1)) ∧ (lexer_skip l 1).tbuf = l.tbuf ∧
    (lexer_skip l 1).B = l.B ∧ (lexer_skip l 1).K = l.K ∧
    ((lexer_current l).1 ≠ -1 →
      avail (lexer_skip l 1) + 1 = avail l ∧
      (lexer_skip l 1).idx ≤ (lexer_skip l 1).bytesRead) := by
  rw [lexer_skip_one_eq]
  obtain ⟨w, av, ps, tb, hB, hK, cons⟩ := lexer_pre_advance_spec h hix
  exact ⟨w, av, ps, tb, hB, hK, fun hne => ⟨(cons hne).1, (cons hne).2.1⟩⟩

/-- State-level description of `lexer_skip l 2` from a state whose cursor
is strictly inside the valid region. -/
theorem lexer_skip_two_spec {l : LexState} (h : wf l)
    (hix : l.idx < l.bytesRead) :
    wf (lexer_skip l 2) ∧ avail (lexer_skip l 2) ≤ avail l ∧
    posLe (pos l) (pos (lexer_skip l 2)) ∧ (lexer_skip l 2).tbuf = l.tbuf ∧
    (lexer_skip l 2).B = l.B ∧ (lexer_skip l 2).K = l.K := by
  have h2 : lexer_skip l 2 =
      (let (c, l1) := lexer_pre_advance l
       if c = -1 then l1 else lexer_skip l1 1) := by
    unfold lexer_skip
    rfl
  obtain ⟨w, av, ps, tb, hB, hK, cons⟩ := lexer_pre_advance_spec h (le_of_lt hix)
  rcases hp : lexer_pre_advance l with ⟨c, l1⟩
  rw [hp] at w av ps tb hB hK cons
  dsimp only at w av ps tb hB hK cons
  rw [h2, hp]
  dsimp only
  by_cases hc : c = -1
  · rw [if_pos hc]
    exact ⟨w, av, ps, tb, hB, hK⟩
  · rw [if_neg hc]
    have hcur : (lexer_current l).1 ≠ -1 := by
      by_cases hz : l.bytesRead = 0
      · have := wf_KB h
        omega
      · rw [lexer_current_val hz hix]
        dsimp only
        have : ((l.buf.getD l.idx 0 : Nat) : Int) ≥ 0 := Int.ofNat_nonneg _
        omega
    obtain ⟨hav1, hix1, _, _⟩ := cons hcur
    obtain ⟨w2, av2, ps2, tb2, hB2, hK2, _⟩ := lexer_skip_one_spec w hix1
    refine ⟨w2, by omega, posLe_trans ps ps2, by rw [tb2, tb],
      by rw [hB2, hB], by rw [hK2, hK]⟩

end Zen

namespace Zen

/-- The current byte of a primed, non-exhausted state is never EOF. -/
theorem lexer_current_ne_EOF {l : LexState} (hz : l.bytesRead ≠ 0)
    (hix : l.idx < l.bytesRead) : (lexer_current l).1 ≠ -1 := by
  rw [lexer_current_val hz hix]
  dsimp only
  have : ((l.buf.getD l.idx 0 : Nat) : Int) ≥ 0 := Int.ofNat_nonneg _
  omega

/-- The newest history entry after a consuming advance is the pre-move
position. -/
theorem lexer_pre_advance_hist_last {l : LexState} (h : wf l)
    (hix : l.idx ≤ l.bytesRead) (hcur : (lexer_current l).1 ≠ -1) :
    (lexer_pre_advance l).2.hist ≠ [] ∧
    (lexer_pre_advance l).2.hist.getLastD (0, 0) = pos l := by
  obtain ⟨_, _, _, _, _, _, cons⟩ := lexer_pre_advance_spec h hix
  obtain ⟨_, _, _, q4⟩ := cons hcur
  rw [q4]
  exact ⟨by simp, List.getLastD_concat _ _ _⟩

/-- Totality and preservation for the whitespace-skipping loop: with
`avail` fuel it always terminates, keeps the state well-formed, never
moves the position backwards and never grows `avail`. -/
theorem skipWsLoop_spec : ∀ fuel l, wf l → avail l < fuel →
    ∃ l', skipWsLoop fuel l = some l' ∧ wf l' ∧ posLe (pos l) (pos l') ∧
      avail l' ≤ avail l := by
  intro fuel
  induction fuel with
  | zero => intro l _ hf; omega
  | succ fuel ih =>
    intro l h hf
    obtain ⟨cw, cav, cline, ccol, ctb, chist, cB, cK, cpr, cne, ceof⟩ :=
      lexer_current_spec h
    rcases hc : lexer_current l with ⟨c, l1⟩
    rw [hc] at cw cav cline ccol ctb chist cB cK cpr cne ceof
    dsimp only at cw cav cline ccol ctb chist cB cK cpr cne ceof
    have hpos1 : posLe (pos l) (pos l1) := by
      simp only [pos, posLe]
      omega
    simp only [skipWsLoop]
    rw [hc]
    dsimp only
    by_cases h1 : c = -1
    · rw [if_pos h1]
      exact ⟨l1, rfl, cw, hpos1, le_of_eq cav⟩
    · rw [if_neg h1]
      by_cases h2 : isspace c
      · rw [if_neg (by simpa using h2)]
        by_cases h3 : c = 10
        · rw [if_pos h3]
          exact ⟨l1, rfl, cw, hpos1, le_of_eq cav⟩
        · rw [if_neg h3]
          obtain ⟨hix1, hz1, _⟩ := cne h1
          obtain ⟨sw, sav, spos, stb, sB, sK, scons⟩ :=
            lexer_skip_one_spec cw (le_of_lt hix1)
          obtain ⟨sav2, six2⟩ := scons (lexer_current_ne_EOF hz1 hix1)
          obtain ⟨l', he', hw', hp', ha'⟩ := ih (lexer_skip l1 1) sw (by omega)
          exact ⟨l', he', hw',
            posLe_trans hpos1 (posLe_trans spos hp'), by omega⟩
      · rw [if_pos (by simpa using h2)]
        exact ⟨l1, rfl, cw, hpos1, le_of_eq cav⟩

/-- Totality and preservation for `lexer_skip_whitespace`. -/
theorem lexer_skip_whitespace_spec {l : LexState} (h : wf l) :
    ∃ l', lexer_skip_whitespace l = some l' ∧ wf l' ∧
      posLe (pos l) (pos l') ∧ avail l' ≤ avail l :=
  skipWsLoop_spec (avail l + 1) l h (by omega)

end Zen

namespace Zen

/-- Alphanumeric/underscore bytes are not EOF. -/
theorem byte_of_isalnum {c : Int} (hc : isalnum c || c = 95) : c ≠ -1 := by
  rcases Bool.or_eq_true_iff.1 hc with hc | hc
  · rcases Bool.or_eq_true_iff.1 hc with hc | hc
    · rcases Bool.or_eq_true_iff.1 hc with hc | hc <;>
        simp only [Bool.and_eq_true, decide_eq_true_eq] at hc <;> omega
    · simp only [isdigit, Bool.and_eq_true, decide_eq_true_eq] at hc
      omega
  · simp only [decide_eq_true_eq] at hc
    omega

/-- Totality and preservation for the single-line-comment loop. -/
theorem lexSLCLoop_spec : ∀ fuel l, wf l → avail l < fuel →
    ∃ l', lexSLCLoop fuel l = some l' ∧ wf l' ∧ posLe (pos l) (pos l') ∧
      avail l' ≤ avail l := by
  intro fuel
  induction fuel with
  | zero => intro l _ hf; omega
  | succ fuel ih =>
    intro l h hf
    obtain ⟨cw, cav, cline, ccol, ctb, chist, cB, cK, cpr, cne, ceof⟩ :=
      lexer_current_spec h
    rcases hc : lexer_current l with ⟨c1, l1⟩
    rw [hc] at cw cav cline ccol ctb chist cB cK cpr cne ceof
    dsimp only at cw cav cline ccol ctb chist cB cK cpr cne ceof
    have hpos1 : posLe (pos l) (pos l1) := by
      simp only [pos, posLe]; omega
    simp only [lexSLCLoop]
    rw [hc]
    dsimp only
    by_cases h1 : c1 = 10
    · rw [if_pos h1]
      exact ⟨l1, rfl, cw, hpos1, le_of_eq cav⟩
    · rw [if_neg h1]
      obtain ⟨dw, dav, dline, dcol, dtb, dhist, dB, dK, dpr, dne, deof⟩ :=
        lexer_current_spec cw
      rcases hd : lexer_current l1 with ⟨c2, l2⟩
      rw [hd] at dw dav dline dcol dtb dhist dB dK dpr dne deof
      dsimp only at dw dav dline dcol dtb dhist dB dK dpr dne deof
      have hpos2 : posLe (pos l1) (pos l2) := by
        simp only [pos, posLe]; omega
      by_cases h2 : c2 = -1
      · rw [if_pos h2]
        exact ⟨l2, rfl, dw, posLe_trans hpos1 hpos2, by omega⟩
      · rw [if_neg h2]
        obtain ⟨hix2, hz2, _⟩ := dne h2
        obtain ⟨aw, aav, apos, atb, aB, aK, acons⟩ :=
          lexer_pre_advance_spec dw (le_of_lt hix2)
        rcases ha : lexer_pre_advance l2 with ⟨r, l3⟩
        rw [ha] at aw aav apos atb aB aK acons
        dsimp only at aw aav apos atb aB aK acons
        obtain ⟨aav2, _, _, _⟩ := acons (lexer_current_ne_EOF hz2 hix2)
        obtain ⟨pw, pav⟩ := _tbuf_put_wf aw r
        obtain ⟨l', he', hw', hp', ha'⟩ := ih (_tbuf_put l3 r) pw (by omega)
        refine ⟨l', he', hw', ?_, by omega⟩
        refine posLe_trans hpos1 (posLe_trans hpos2 (posLe_trans apos ?_))
        obtain ⟨_, _, _, _, _, _, qline, qcol, _⟩ := _tbuf_put_spec l3 r
        refine posLe_trans ?_ hp'
        simp only [pos, posLe]
        omega

/-- Totality and preservation for the block-comment loop. -/
theorem lexMLCLoop_spec : ∀ fuel l, wf l → avail l < fuel →
    ∃ l', lexMLCLoop fuel l = some l' ∧ wf l' ∧ posLe (pos l) (pos l') ∧
      avail l' ≤ avail l := by
  intro fuel
  induction fuel with
  | zero => intro l _ hf; omega
  | succ fuel ih =>
    intro l h hf
    obtain ⟨cw, cav, cline, ccol, ctb, chist, cB, cK, cpr, cne, ceof⟩ :=
      lexer_current_spec h
    rcases hc : lexer_current l with ⟨c1, l1⟩
    rw [hc] at cw cav cline ccol ctb chist cB cK cpr cne ceof
    dsimp only at cw cav cline ccol ctb chist cB cK cpr cne ceof
    have hpos1 : posLe (pos l) (pos l1) := by
      simp only [pos, posLe]; omega
    simp only [lexMLCLoop]
    rw [hc]
    dsimp only
    by_cases h46 : c1 = 46
    · rw [if_pos h46]
      obtain ⟨kw, kav, kline, kcol, ktb, khist, kB, kK, ktr1, ktr2, kok⟩ :=
        lexer_peek_spec cw
      rcases hk : lexer_peek l1 with ⟨p, lp⟩
      rw [hk] at kw kav kline kcol ktb khist kB kK ktr1 ktr2 kok
      dsimp only at kw kav kline kcol ktb khist kB kK ktr1 ktr2 kok
      have hposp : posLe (pos l1) (pos lp) := by
        simp only [pos, posLe]; omega
      obtain ⟨hix1, hz1, _⟩ := cne (by omega)
      have hixp : lp.idx < lp.bytesRead := ktr2 hix1
      dsimp only
      by_cases hp47 : p = 47
      · rw [if_pos (by simpa using hp47)]
        obtain ⟨sw, sav, spos, stb, sB, sK⟩ := lexer_skip_two_spec kw hixp
        exact ⟨lexer_skip lp 2, rfl, sw,
          posLe_trans hpos1 (posLe_trans hposp spos), by omega⟩
      · rw [if_neg (by simpa using hp47)]
        obtain ⟨dw, dav, dline, dcol, dtb, dhist, dB, dK, dpr, dne, deof⟩ :=
          lexer_current_spec kw
        rcases hd : lexer_current lp with ⟨c2, l2⟩
        rw [hd] at dw dav dline dcol dtb dhist dB dK dpr dne deof
        dsimp only at dw dav dline dcol dtb dhist dB dK dpr dne deof
        have hpos2 : posLe (pos lp) (pos l2) := by
          simp only [pos, posLe]; omega
        by_cases h2 : c2 = -1
        · rw [if_pos h2]
          exact ⟨l2, rfl, dw, posLe_trans hpos1 (posLe_trans hposp hpos2),
            by omega⟩
        · rw [if_neg h2]
          obtain ⟨hix2, hz2, _⟩ := dne h2
          obtain ⟨aw, aav, apos, atb, aB, aK, acons⟩ :=
            lexer_pre_advance_spec dw (le_of_lt hix2)
          rcases ha : lexer_pre_advance l2 with ⟨r, l3⟩
          rw [ha] at aw aav apos atb aB aK acons
          dsimp only at aw aav apos atb aB aK acons
          obtain ⟨aav2, _, _, _⟩ := acons (lexer_current_ne_EOF hz2 hix2)
          obtain ⟨pw, pav⟩ := _tbuf_put_wf aw r
          obtain ⟨l', he', hw', hp', ha'⟩ := ih (_tbuf_put l3 r) pw (by omega)
          refine ⟨l', he', hw', ?_, by omega⟩
          have hposput : posLe (pos l3) (pos (_tbuf_put l3 r)) := by
            obtain ⟨_, _, _, _, _, _, qline, qcol, _⟩ := _tbuf_put_spec l3 r
            simp only [pos, posLe]
            omega
          exact posLe_trans hpos1 (posLe_trans hposp (posLe_trans hpos2
            (posLe_trans apos (posLe_trans hposput hp'))))
    · rw [if_neg h46]
      dsimp only
      obtain ⟨dw, dav, dline, dcol, dtb, dhist, dB, dK, dpr, dne, deof⟩ :=
        lexer_current_spec cw
      rcases hd : lexer_current l1 with ⟨c2, l2⟩
      rw [hd] at dw dav dline dcol dtb dhist dB dK dpr dne deof
      dsimp only at dw dav dline dcol dtb dhist dB dK dpr dne deof
      have hpos2 : posLe (pos l1) (pos l2) := by
        simp only [pos, posLe]; omega
      by_cases h2 : c2 = -1
      · rw [if_pos h2]
        exact ⟨l2, rfl, dw, posLe_trans hpos1 hpos2, by omega⟩
      · rw [if_neg h2]
        obtain ⟨hix2, hz2, _⟩ := dne h2
        obtain ⟨aw, aav, apos, atb, aB, aK, acons⟩ :=
          lexer_pre_advance_spec dw (le_of_lt hix2)
        rcases ha : lexer_pre_advance l2 with ⟨r, l3⟩
        rw [ha] at aw aav apos atb aB aK acons
        dsimp only at aw aav apos atb aB aK acons
        obtain ⟨aav2, _, _, _⟩ := acons (lexer_current_ne_EOF hz2 hix2)
        obtain ⟨pw, pav⟩ := _tbuf_put_wf aw r
        obtain ⟨l', he', hw', hp', ha'⟩ := ih (_tbuf_put l3 r) pw (by omega)
        refine ⟨l', he', hw', ?_, by omega⟩
        have hposput : posLe (pos l3) (pos (_tbuf_put l3 r)) := by
          obtain ⟨_, _, _, _, _, _, qline, qcol, _⟩ := _tbuf_put_spec l3 r
          simp only [pos, posLe]
          omega
        exact posLe_trans hpos1 (posLe_trans hpos2
          (posLe_trans apos (posLe_trans hposput hp')))

end Zen

namespace Zen

/-- Totality and preservation for the identifier loop. -/
theorem lexIdLoop_spec : ∀ fuel l, wf l → avail l < fuel →
    ∃ l', lexIdLoop fuel l = some l' ∧ wf l' ∧ posLe (pos l) (pos l') ∧
      avail l' ≤ avail l := by
  intro fuel
  induction fuel with
  | zero => intro l _ hf; omega
  | succ fuel ih =>
    intro l h hf
    obtain ⟨cw, cav, cline, ccol, ctb, chist, cB, cK, cpr, cne, ceof⟩ :=
      lexer_current_spec h
    rcases hc : lexer_current l with ⟨c1, l1⟩
    rw [hc] at cw cav cline ccol ctb chist cB cK cpr cne ceof
    dsimp only at cw cav cline ccol ctb chist cB cK cpr cne ceof
    have hpos1 : posLe (pos l) (pos l1) := by
      simp only [pos, posLe]; omega
    simp only [lexIdLoop]
    rw [hc]
    dsimp only
    by_cases h1 : isalnum c1 || c1 = 95
    · rw [if_neg (not_not_intro h1)]
      have hne1 : c1 ≠ -1 := byte_of_isalnum h1
      obtain ⟨hix1, hz1, _⟩ := cne hne1
      obtain ⟨dw, dav, dline, dcol, dtb, dhist, dB, dK, dpr, dne, deof⟩ :=
        lexer_current_spec cw
      rcases hd : lexer_current l1 with ⟨c2, l2⟩
      rw [hd] at dw dav dline dcol dtb dhist dB dK dpr dne deof
      dsimp only at dw dav dline dcol dtb dhist dB dK dpr dne deof
      have hl2 : l2 = l1 := dpr hz1
      subst hl2
      obtain ⟨pw, pav⟩ := _tbuf_put_wf dw c2
      obtain ⟨qB, qK, qfp, qbuf, qidx, qbr, qline, qcol, qhist, qtb⟩ :=
        _tbuf_put_spec l2 c2
      have hz3 : (_tbuf_put l2 c2).bytesRead ≠ 0 := by rw [qbr]; exact hz1
      have hix3 : (_tbuf_put l2 c2).idx < (_tbuf_put l2 c2).bytesRead := by
        rw [qbr, qidx]; exact hix1
      obtain ⟨sw, sav, spos, stb, sB, sK, scons⟩ :=
        lexer_skip_one_spec pw (le_of_lt hix3)
      obtain ⟨sav2, _⟩ := scons (lexer_current_ne_EOF hz3 hix3)
      obtain ⟨l', he', hw', hp', ha'⟩ :=
        ih (lexer_skip (_tbuf_put l2 c2) 1) sw (by omega)
      refine ⟨l', he', hw', ?_, by omega⟩
      have hpos3 : posLe (pos l2) (pos (_tbuf_put l2 c2)) := by
        simp only [pos, posLe]; omega
      exact posLe_trans hpos1 (posLe_trans hpos3 (posLe_trans spos hp'))
    · rw [if_pos h1]
      exact ⟨l1, rfl, cw, hpos1, le_of_eq cav⟩

/-- Totality and preservation for the string-body loop. -/
theorem lexStrLoop_spec (q : Int) (hq : q ≠ -1) :
    ∀ fuel l, wf l → avail l < fuel →
    ∃ l', lexStrLoop q fuel l = some l' ∧ wf l' ∧ posLe (pos l) (pos l') ∧
      avail l' ≤ avail l := by
  intro fuel
  induction fuel with
  | zero => intro l _ hf; omega
  | succ fuel ih =>
    intro l h hf
    obtain ⟨cw, cav, cline, ccol, ctb, chist, cB, cK, cpr, cne, ceof⟩ :=
      lexer_current_spec h
    rcases hc : lexer_current l with ⟨ch, l1⟩
    rw [hc] at cw cav cline ccol ctb chist cB cK cpr cne ceof
    dsimp only at cw cav cline ccol ctb chist cB cK cpr cne ceof
    have hpos1 : posLe (pos l) (pos l1) := by
      simp only [pos, posLe]; omega
    simp only [lexStrLoop]
    rw [hc]
    dsimp only
    by_cases h1 : ch = -1 || ch = 10
    · rw [if_pos (by simpa using h1)]
      exact ⟨l1, rfl, cw, hpos1, le_of_eq cav⟩
    · rw [if_neg (by simpa using h1)]
      simp only [Bool.or_eq_true, decide_eq_true_eq, not_or] at h1
      obtain ⟨hne1, hne10⟩ := h1
      obtain ⟨hix1, hz1, _⟩ := cne hne1
      by_cases h2 : ch = q
      · rw [if_pos h2]
        obtain ⟨sw, sav, spos, stb, sB, sK, scons⟩ :=
          lexer_skip_one_spec cw (le_of_lt hix1)
        exact ⟨lexer_skip l1 1, rfl, sw, posLe_trans hpos1 spos, by omega⟩
      · rw [if_neg h2]
        by_cases h3 : ch = 92
        · rw [if_pos h3]
          obtain ⟨aw, aav, apos, atb, aB, aK, acons⟩ :=
            lexer_pre_advance_spec cw (le_of_lt hix1)
          rcases ha : lexer_pre_advance l1 with ⟨esc, l2⟩
          rw [ha] at aw aav apos atb aB aK acons
          dsimp only at aw aav apos atb aB aK acons
          obtain ⟨aav2, aix2, _, _⟩ := acons (lexer_current_ne_EOF hz1 hix1)
          -- the five escape branches and the default all produce a state
          -- whose only change is the token buffer
          have hput : ∀ l9 : LexState, wf l9 → l9.idx ≤ l9.bytesRead →
              avail l9 < fuel →
              ∀ lput : LexState, (wf lput ∧ avail lput = avail l9 ∧
                lput.idx = l9.idx ∧ lput.bytesRead = l9.bytesRead ∧
                pos lput = pos l9) →
              ∃ l', lexStrLoop q fuel (lexer_skip lput 1) = some l' ∧
                wf l' ∧ posLe (pos l9) (pos l') ∧
                avail l' + 1 ≤ avail l9 + 1 := by
            intro l9 hw9 hix9 h9fuel lput ⟨pw, pavq, pidxq, pbrq, pposq⟩
            have hixp : lput.idx ≤ lput.bytesRead := by
              rw [pidxq, pbrq]; exact hix9
            obtain ⟨sw, sav, spos, stb, sB, sK, scons⟩ :=
              lexer_skip_one_spec pw hixp
            obtain ⟨l', he', hw', hp', ha'⟩ := ih (lexer_skip lput 1) sw
              (by omega)
            refine ⟨l', he', hw', ?_, by omega⟩
            have : posLe (pos l9) (pos lput) := by rw [pposq]; exact posLe_refl _
            exact posLe_trans this (posLe_trans spos hp')
          have happ : ∀ lput : LexState, (wf lput ∧ avail lput = avail l2 ∧
                lput.idx = l2.idx ∧ lput.bytesRead = l2.bytesRead ∧
                pos lput = pos l2) →
              ∃ l', lexStrLoop q fuel (lexer_skip lput 1) = some l' ∧
                wf l' ∧ posLe (pos l) (pos l') ∧ avail l' ≤ avail l := by
            intro lput hyp
            obtain ⟨l', he', hw', hp', ha'⟩ := hput l2 aw aix2 (by omega) lput hyp
            exact ⟨l', he', hw', posLe_trans hpos1 (posLe_trans apos hp'),
              by omega⟩
          have hone : ∀ b : Int, wf (_tbuf_put l2 b) ∧
              avail (_tbuf_put l2 b) = avail l2 ∧
              (_tbuf_put l2 b).idx = l2.idx ∧
              (_tbuf_put l2 b).bytesRead = l2.bytesRead ∧
              pos (_tbuf_put l2 b) = pos l2 := by
            intro b
            obtain ⟨pw, pav⟩ := _tbuf_put_wf aw b
            obtain ⟨qB, qK, qfp, qbuf, qidx, qbr, qline, qcol, qhist, qtb⟩ :=
              _tbuf_put_spec l2 b
            exact ⟨pw, pav, qidx, qbr, by simp only [pos, qline, qcol]⟩
          have htwo : wf (_tbuf_put (_tbuf_put l2 92) esc) ∧
              avail (_tbuf_put (_tbuf_put l2 92) esc) = avail l2 ∧
              (_tbuf_put (_tbuf_put l2 92) esc).idx = l2.idx ∧
              (_tbuf_put (_tbuf_put l2 92) esc).bytesRead = l2.bytesRead ∧
              pos (_tbuf_put (_tbuf_put l2 92) esc) = pos l2 := by
            obtain ⟨w1, a1, i1, b1, p1⟩ := hone 92
            obtain ⟨pw, pav⟩ := _tbuf_put_wf w1 esc
            obtain ⟨qB, qK, qfp, qbuf, qidx, qbr, qline, qcol, qhist, qtb⟩ :=
              _tbuf_put_spec (_tbuf_put l2 92) esc
            refine ⟨pw, by omega, by omega, by omega, ?_⟩
            simp only [pos, qline, qcol]
            simpa [pos] using p1
          split_ifs <;> [exact happ _ (hone 10); exact happ _ (hone 9);
            exact happ _ (hone 92); exact happ _ (hone 34);
            exact happ _ (hone 39); exact happ _ htwo]
        · rw [if_neg h3]
          obtain ⟨pw, pav⟩ := _tbuf_put_wf cw ch
          obtain ⟨qB, qK, qfp, qbuf, qidx, qbr, qline, qcol, qhist, qtb⟩ :=
            _tbuf_put_spec l1 ch
          have hz3 : (_tbuf_put l1 ch).bytesRead ≠ 0 := by rw [qbr]; exact hz1
          have hix3 : (_tbuf_put l1 ch).idx < (_tbuf_put l1 ch).bytesRead := by
            rw [qbr, qidx]; exact hix1
          obtain ⟨sw, sav, spos, stb, sB, sK, scons⟩ :=
            lexer_skip_one_spec pw (le_of_lt hix3)
          obtain ⟨sav2, _⟩ := scons (lexer_current_ne_EOF hz3 hix3)
          obtain ⟨l', he', hw', hp', ha'⟩ :=
            ih (lexer_skip (_tbuf_put l1 ch) 1) sw (by omega)
          refine ⟨l', he', hw', ?_, by omega⟩
          have hpos3 : posLe (pos l1) (pos (_tbuf_put l1 ch)) := by
            simp only [pos, posLe]; omega
          exact posLe_trans hpos1 (posLe_trans hpos3 (posLe_trans spos hp'))

end Zen

namespace Zen

/-- Totality and preservation for the number-scanning loop, tracking in
addition that whenever `prev` has been set by an iteration, the newest
history entry records a position no earlier than the base position `q`
(used to justify the trailing `lexer_unget`). -/
theorem lexNumLoop_spec (q : Nat × Nat) : ∀ fuel ds pv l, wf l →
    avail l < fuel → posLe q (pos l) →
    (pv ≠ none → l.hist ≠ [] ∧ posLe q (l.hist.getLastD (0, 0))) →
    ∃ r, lexNumLoop ds pv fuel l = some r ∧ wf r.2 ∧
      posLe (pos l) (pos r.2) ∧ avail r.2 ≤ avail l ∧
      (r.1 ≠ none → r.2.hist ≠ [] ∧ posLe q (r.2.hist.getLastD (0, 0))) := by
  intro fuel
  induction fuel with
  | zero => intro ds pv l _ hf; omega
  | succ fuel ih =>
    intro ds pv l h hf hq hpv
    obtain ⟨cw, cav, cline, ccol, ctb, chist, cB, cK, cpr, cne, ceof⟩ :=
      lexer_current_spec h
    rcases hc : lexer_current l with ⟨c1, l1⟩
    rw [hc] at cw cav cline ccol ctb chist cB cK cpr cne ceof
    dsimp only at cw cav cline ccol ctb chist cB cK cpr cne ceof
    have hpos1 : posLe (pos l) (pos l1) := by
      simp only [pos, posLe]; omega
    have hstep : ∀ l3 ch ds2, wf l3 → l3.bytesRead ≠ 0 →
        l3.idx < l3.bytesRead → pos l3 = pos l → avail l3 = avail l →
        ∃ r, (match lexer_post_advance (_tbuf_put l3 ch) with
              | (pr, l5) => lexNumLoop ds2 (some pr) fuel l5) = some r ∧
          wf r.2 ∧ posLe (pos l) (pos r.2) ∧ avail r.2 ≤ avail l ∧
          (r.1 ≠ none → r.2.hist ≠ [] ∧
            posLe q (r.2.hist.getLastD (0, 0))) := by
      intro l3 ch ds2 w3 hz3 hix3 hpos3 hav3
      obtain ⟨pw, pav⟩ := _tbuf_put_wf w3 ch
      obtain ⟨qB, qK, qfp, qbuf, qidx, qbr, qline, qcol, qhist, qtb⟩ :=
        _tbuf_put_spec l3 ch
      have hz4 : (_tbuf_put l3 ch).bytesRead ≠ 0 := by rw [qbr]; exact hz3
      have hix4 : (_tbuf_put l3 ch).idx < (_tbuf_put l3 ch).bytesRead := by
        rw [qbr, qidx]; exact hix3
      have hcur4 := lexer_current_ne_EOF hz4 hix4
      obtain ⟨aw, aav, apos, atb, aB, aK, acons⟩ :=
        lexer_pre_advance_spec pw (le_of_lt hix4)
      obtain ⟨aav2, _, _, _⟩ := acons hcur4
      obtain ⟨ahn, ahlast⟩ :=
        lexer_pre_advance_hist_last pw (le_of_lt hix4) hcur4
      have hstate := lexer_post_advance_state pw
      rcases hpa : lexer_post_advance (_tbuf_put l3 ch) with ⟨pr, l5⟩
      rw [hpa] at hstate
      dsimp only at hstate
      rw [hstate] at *
      have hql4 : posLe q (pos (_tbuf_put l3 ch)) := by
        have : pos (_tbuf_put l3 ch) = pos l3 := by
          simp only [pos, qline, qcol]
        rw [this, hpos3]
        exact hq
      obtain ⟨r, hr, hwr, hpr, har, hinv⟩ :=
        ih ds2 (some pr) (lexer_pre_advance (_tbuf_put l3 ch)).2 aw
          (by omega) (posLe_trans hql4 apos)
          (fun _ => ⟨ahn, by rw [ahlast]; exact hql4⟩)
      refine ⟨r, hr, hwr, ?_, by omega, hinv⟩
      have hposput : posLe (pos l) (pos (_tbuf_put l3 ch)) := by
        have : pos (_tbuf_put l3 ch) = pos l3 := by
          simp only [pos, qline, qcol]
        rw [this, hpos3]
        exact posLe_refl _
      exact posLe_trans hposput (posLe_trans apos hpr)
    simp only [lexNumLoop]
    rw [hc]
    dsimp only
    by_cases hdig : isdigit c1 = true
    · rw [if_pos hdig]
      dsimp only
      have hne1 : c1 ≠ -1 := by
        simp only [isdigit, Bool.and_eq_true, decide_eq_true_eq] at hdig
        omega
      obtain ⟨hix1, hz1, _⟩ := cne hne1
      rw [lexer_current_val hz1 hix1]
      dsimp only
      have hpos1e : pos l1 = pos l := by simp only [pos]; rw [cline, ccol]
      by_cases h46 : ((l1.buf.getD l1.idx 0 : Nat) : Int) = 46
      · rw [if_pos h46]
        by_cases hds : ds
        · rw [if_pos hds]
          exact ⟨(pv, l1), rfl, cw, hpos1, le_of_eq cav,
            fun hne => by
              rw [chist]
              exact hpv hne⟩
        · rw [if_neg hds]
          exact hstep l1 _ true cw hz1 hix1 hpos1e cav
      · rw [if_neg h46]
        exact hstep l1 _ ds cw hz1 hix1 hpos1e cav
    · rw [if_neg hdig]
      obtain ⟨dw, dav, dline, dcol, dtb, dhist, dB, dK, dpr, dne, deof⟩ :=
        lexer_current_spec cw
      rcases hd : lexer_current l1 with ⟨c2, l2⟩
      rw [hd] at dw dav dline dcol dtb dhist dB dK dpr dne deof
      dsimp only at dw dav dline dcol dtb dhist dB dK dpr dne deof
      have hpos2 : posLe (pos l) (pos l2) := by
        simp only [pos, posLe]; omega
      dsimp only
      by_cases h462 : c2 = 46
      · rw [if_pos (by simpa using h462)]
        obtain ⟨hix2, hz2, _⟩ := dne (by omega)
        rw [lexer_current_val hz2 hix2]
        dsimp only
        have hpos2e : pos l2 = pos l := by
          simp only [pos]; rw [dline, dcol, cline, ccol]
        have hav2 : avail l2 = avail l := by rw [dav, cav]
        by_cases h46 : ((l2.buf.getD l2.idx 0 : Nat) : Int) = 46
        · rw [if_pos h46]
          by_cases hds : ds
          · rw [if_pos hds]
            refine ⟨(pv, l2), rfl, dw, hpos2, le_of_eq hav2, fun hne => ?_⟩
            rw [dhist, chist]
            exact hpv hne
          · rw [if_neg hds]
            exact hstep l2 _ true dw hz2 hix2 hpos2e hav2
        · rw [if_neg h46]
          exact hstep l2 _ ds dw hz2 hix2 hpos2e hav2
      · rw [if_neg (by simpa using h462)]
        refine ⟨(pv, l2), rfl, dw, hpos2, ?_, fun hne => ?_⟩
        · rw [dav, cav]
        · rw [dhist, chist]
          exact hpv hne

end Zen

namespace Zen

/-- Size sanity of a produced token: its recorded length and its lexeme
(if present) stay strictly below `ZLANG_TOKSIZ`. -/
def tokenSizeOk (t : Token) : Prop :=
  t.len < TOKSIZ ∧ ∀ s, t.lexeme = some s → s.length < TOKSIZ

/-- Tokens made from a bounded token buffer are size-sane. -/
theorem _make_token_sizeOk {tb : List Nat} (h : tb.length < TOKSIZ)
    (type : Tok) : tokenSizeOk (_make_token type tb) := by
  unfold tokenSizeOk _make_token token_create
  by_cases hlen : tb.length = 0
  · rw [if_pos hlen]
    dsimp only
    exact ⟨by simp [TOKSIZ], fun s hs => by simp at hs⟩
  · rw [if_neg hlen]
    dsimp only
    refine ⟨lt_of_le_of_lt (cstr_length_le tb) h, fun s hs => ?_⟩
    have hs2 : s = cstr tb := by simpa using hs.symm
    rw [hs2]
    exact lt_of_le_of_lt (cstr_length_le tb) h

/-- `_tbuf_reset` keeps well-formedness, `avail` and position. -/
theorem _tbuf_reset_spec {l : LexState} (h : wf l) :
    wf (_tbuf_reset l) ∧ avail (_tbuf_reset l) = avail l ∧
    pos (_tbuf_reset l) = pos l ∧ (_tbuf_reset l).idx = l.idx ∧
    (_tbuf_reset l).bytesRead = l.bytesRead := by
  refine ⟨?_, rfl, rfl, rfl, rfl⟩
  unfold wf _tbuf_reset
  dsimp only
  exact ⟨wf_buf h, wf_bytesRead h, wf_idx h, wf_hist h, wf_K h, wf_KB h,
    wf_B64 h, by decide⟩

/-- Totality and preservation for `lex_string`. -/
theorem lex_string_spec {l : LexState} (h : wf l)
    (hix : l.idx ≤ l.bytesRead) {entry_quote : Int} (hq : entry_quote ≠ -1) :
    ∃ t l', lex_string l entry_quote = some (t, l') ∧ wf l' ∧
      posLe (pos l) (pos l') ∧ tokenSizeOk t := by
  obtain ⟨sw, sav, spos, stb, sB, sK, _⟩ := lexer_skip_one_spec h hix
  obtain ⟨l2, he2, hw2, hp2, ha2⟩ :=
    lexStrLoop_spec entry_quote hq (avail (lexer_skip l 1) + 1)
      (lexer_skip l 1) sw (by omega)
  refine ⟨_make_token .TOKEN_STRING l2.tbuf, l2, ?_, hw2,
    posLe_trans spos hp2, _make_token_sizeOk (wf_tbuf hw2) _⟩
  rw [show lex_string l entry_quote =
        (lexStrLoop entry_quote (avail (lexer_skip l 1) + 1)
          (lexer_skip l 1)).map
          (fun l2 => (_make_token .TOKEN_STRING l2.tbuf, l2)) from rfl, he2]
  rfl

/-- Totality and preservation for `lex_single_line_comment`. -/
theorem lex_single_line_comment_spec {l : LexState} (h : wf l)
    (hix : l.idx < l.bytesRead) :
    ∃ t l', lex_single_line_comment l = some (t, l') ∧ wf l' ∧
      posLe (pos l) (pos l') ∧ tokenSizeOk t := by
  obtain ⟨sw, sav, spos, stb, sB, sK⟩ := lexer_skip_two_spec h hix
  obtain ⟨l2, he2, hw2, hp2, ha2⟩ :=
    lexSLCLoop_spec (avail (lexer_skip l 2) + 1) (lexer_skip l 2) sw (by omega)
  refine ⟨_make_token .TOKEN_COMMENT l2.tbuf, l2, ?_, hw2,
    posLe_trans spos hp2, _make_token_sizeOk (wf_tbuf hw2) _⟩
  rw [show lex_single_line_comment l =
        (lexSLCLoop (avail (lexer_skip l 2) + 1) (lexer_skip l 2)).map
          (fun l2 => (_make_token .TOKEN_COMMENT l2.tbuf, l2)) from rfl, he2]
  rfl

/-- Totality and preservation for `lex_multi_line_comment`. -/
theorem lex_multi_line_comment_spec {l : LexState} (h : wf l)
    (hix : l.idx < l.bytesRead) :
    ∃ t l', lex_multi_line_comment l = some (t, l') ∧ wf l' ∧
      posLe (pos l) (pos l') ∧ tokenSizeOk t := by
  obtain ⟨sw, sav, spos, stb, sB, sK⟩ := lexer_skip_two_spec h hix
  obtain ⟨l2, he2, hw2, hp2, ha2⟩ :=
    lexMLCLoop_spec (avail (lexer_skip l 2) + 1) (lexer_skip l 2) sw (by omega)
  refine ⟨_make_token .TOKEN_COMMENT l2.tbuf, l2, ?_, hw2,
    posLe_trans spos hp2, _make_token_sizeOk (wf_tbuf hw2) _⟩
  rw [show lex_multi_line_comment l =
        (lexMLCLoop (avail (lexer_skip l 2) + 1) (lexer_skip l 2)).map
          (fun l2 => (_make_token .TOKEN_COMMENT l2.tbuf, l2)) from rfl, he2]
  rfl

/-- Totality and preservation for `lex_identifier`. -/
theorem lex_identifier_spec {l : LexState} (h : wf l) :
    ∃ t l', lex_identifier l = some (t, l') ∧ wf l' ∧
      posLe (pos l) (pos l') ∧ tokenSizeOk t := by
  obtain ⟨l2, he2, hw2, hp2, ha2⟩ :=
    lexIdLoop_spec (avail l + 1) l h (by omega)
  by_cases hkw : cstr l2.tbuf ∈ KW_TAB
  · refine ⟨_make_token .TOKEN_KEYWORD l2.tbuf, l2, ?_, hw2, hp2,
      _make_token_sizeOk (wf_tbuf hw2) _⟩
    unfold lex_identifier
    rw [he2]
    simp [hkw]
  · refine ⟨_make_token .TOKEN_IDENTIFIER l2.tbuf, l2, ?_, hw2, hp2,
      _make_token_sizeOk (wf_tbuf hw2) _⟩
    unfold lex_identifier
    rw [he2]
    simp [hkw]

/-- Totality and preservation for the scanning part of
`lex_number_or_dot` (loop plus the conditional unget). -/
theorem _lex_number_rest_spec {l : LexState} (h : wf l) (current : Int) :
    ∃ t l', _lex_number_rest l current = some (t, l') ∧ wf l' ∧
      posLe (pos l) (pos l') ∧ tokenSizeOk t := by
  obtain ⟨r, hr, hwr, hpr, har, hinv⟩ :=
    lexNumLoop_spec (pos l) (avail l + 1) (decide (current = 46)) none l h
      (by omega) (posLe_refl _) (fun hc => absurd rfl hc)
  by_cases hug : r.1 = some 46
  · obtain ⟨hhn, hhp⟩ := hinv (by rw [hug]; simp)
    by_cases hz : r.2.idx = 0
    · refine ⟨_make_token .TOKEN_NUMBER (lexer_unget r.2).2.tbuf,
        (lexer_unget r.2).2, ?_, lexer_unget_wf hwr, ?_, ?_⟩
      · unfold _lex_number_rest
        rw [hr]
        dsimp only [Option.map]
        rw [if_pos hug]
      · rw [lexer_unget_fail (Or.inr hz)]
        exact hpr
      · rw [lexer_unget_fail (Or.inr hz)]
        exact _make_token_sizeOk (wf_tbuf hwr) _
    · refine ⟨_make_token .TOKEN_NUMBER (lexer_unget r.2).2.tbuf,
        (lexer_unget r.2).2, ?_, lexer_unget_wf hwr, ?_, ?_⟩
      · unfold _lex_number_rest
        rw [hr]
        dsimp only [Option.map]
        rw [if_pos hug]
      · rw [lexer_unget_succ hhn hz]
        simpa [pos] using hhp
      · rw [lexer_unget_succ hhn hz]
        exact _make_token_sizeOk (wf_tbuf hwr) _
  · refine ⟨_make_token .TOKEN_NUMBER r.2.tbuf, r.2, ?_, hwr, hpr,
      _make_token_sizeOk (wf_tbuf hwr) _⟩
    unfold _lex_number_rest
    rw [hr]
    dsimp only [Option.map]
    rw [if_neg hug]

/-- Totality and preservation for `lex_number_or_dot`. -/
theorem lex_number_or_dot_spec {l : LexState} (h : wf l)
    (hix : l.idx ≤ l.bytesRead) (current : Int) :
    ∃ t l', lex_number_or_dot l current = some (t, l') ∧ wf l' ∧
      posLe (pos l) (pos l') ∧ tokenSizeOk t := by
  unfold lex_number_or_dot
  by_cases h46 : current = 46
  · rw [if_pos h46]
    obtain ⟨kw, kav, kline, kcol, ktb, khist, kB, kK, ktr1, ktr2, kok⟩ :=
      lexer_peek_spec h
    rcases hk : lexer_peek l with ⟨p, lp⟩
    rw [hk] at kw kav kline kcol ktb khist kB kK ktr1 ktr2 kok
    dsimp only at kw kav kline kcol ktb khist kB kK ktr1 ktr2 kok
    have hposp : posLe (pos l) (pos lp) := by
      simp only [pos, posLe]; omega
    dsimp only
    by_cases hpd : isdigit p
    · rw [if_neg (not_not_intro hpd)]
      obtain ⟨t, l', he', hw', hp', ht'⟩ := _lex_number_rest_spec kw current
      exact ⟨t, l', he', hw', posLe_trans hposp hp', ht'⟩
    · rw [if_pos (by simpa using hpd)]
      obtain ⟨pw, pav⟩ := _tbuf_put_wf kw 46
      obtain ⟨qB, qK, qfp, qbuf, qidx, qbr, qline, qcol, qhist, qtb⟩ :=
        _tbuf_put_spec lp 46
      have hixp : (_tbuf_put lp 46).idx ≤ (_tbuf_put lp 46).bytesRead := by
        rw [qidx, qbr]; exact ktr1 hix
      obtain ⟨sw, sav, spos, stb, sB, sK, _⟩ := lexer_skip_one_spec pw hixp
      refine ⟨_make_token .TOKEN_DOT (lexer_skip (_tbuf_put lp 46) 1).tbuf,
        lexer_skip (_tbuf_put lp 46) 1, rfl, sw, ?_,
        _make_token_sizeOk (wf_tbuf sw) _⟩
      have hposq : posLe (pos lp) (pos (_tbuf_put lp 46)) := by
        simp only [pos, posLe]; omega
      exact posLe_trans hposp (posLe_trans hposq spos)
  · rw [if_neg h46]
    exact _lex_number_rest_spec h current

end Zen

namespace Zen

/-- Shared reasoning for the one-byte-consuming token emitters: put one
byte, skip one byte, and build a token from the buffer. -/
theorem _put_skip1_spec {l : LexState} (h : wf l)
    (hix : l.idx ≤ l.bytesRead) (b : Int) :
    wf (lexer_skip (_tbuf_put l b) 1) ∧
    posLe (pos l) (pos (lexer_skip (_tbuf_put l b) 1)) := by
  obtain ⟨pw, pav⟩ := _tbuf_put_wf h b
  obtain ⟨qB, qK, qfp, qbuf, qidx, qbr, qline, qcol, qhist, qtb⟩ :=
    _tbuf_put_spec l b
  have hixp : (_tbuf_put l b).idx ≤ (_tbuf_put l b).bytesRead := by
    rw [qidx, qbr]; exact hix
  obtain ⟨sw, sav, spos, stb, sB, sK, _⟩ := lexer_skip_one_spec pw hixp
  refine ⟨sw, ?_⟩
  have : posLe (pos l) (pos (_tbuf_put l b)) := by
    simp only [pos, posLe]; omega
  exact posLe_trans this spos

/-- Shared reasoning for the two-byte-consuming token emitters: put two
bytes, skip two bytes. -/
theorem _put2_skip2_spec {l : LexState} (h : wf l)
    (hlt : l.idx < l.bytesRead) (a b : Int) :
    wf (lexer_skip (_tbuf_put2 l a b) 2) ∧
    posLe (pos l) (pos (lexer_skip (_tbuf_put2 l a b) 2)) := by
  obtain ⟨pw1, pav1⟩ := _tbuf_put_wf h a
  obtain ⟨q1B, q1K, q1fp, q1buf, q1idx, q1br, q1line, q1col, q1hist, q1tb⟩ :=
    _tbuf_put_spec l a
  obtain ⟨pw2, pav2⟩ := _tbuf_put_wf pw1 b
  obtain ⟨q2B, q2K, q2fp, q2buf, q2idx, q2br, q2line, q2col, q2hist, q2tb⟩ :=
    _tbuf_put_spec (_tbuf_put l a) b
  have hlt2 : (_tbuf_put2 l a b).idx < (_tbuf_put2 l a b).bytesRead := by
    unfold _tbuf_put2
    rw [q2idx, q2br, q1idx, q1br]
    exact hlt
  have hw2 : wf (_tbuf_put2 l a b) := pw2
  obtain ⟨sw, sav, spos, stb, sB, sK⟩ := lexer_skip_two_spec hw2 hlt2
  refine ⟨sw, ?_⟩
  have : posLe (pos l) (pos (_tbuf_put2 l a b)) := by
    unfold _tbuf_put2
    simp only [pos, posLe]
    omega
  exact posLe_trans this spos

/-- Totality and preservation for `lex_single_symbol`. -/
theorem lex_single_symbol_spec {l : LexState} (h : wf l)
    (hix : l.idx ≤ l.bytesRead) (current : Int) :
    wf (lex_single_symbol l current).2 ∧
    posLe (pos l) (pos (lex_single_symbol l current).2) ∧
    tokenSizeOk (lex_single_symbol l current).1 := by
  obtain ⟨sw, spos⟩ := _put_skip1_spec h hix current
  exact ⟨sw, spos, _make_token_sizeOk (wf_tbuf sw) _⟩

/-- Totality and preservation for `lex_arrow`. -/
theorem lex_arrow_spec {l : LexState} (h : wf l)
    (hlt : l.idx < l.bytesRead) (arrow_symbol : Int) :
    wf (lex_arrow l arrow_symbol).2 ∧
    posLe (pos l) (pos (lex_arrow l arrow_symbol).2) ∧
    tokenSizeOk (lex_arrow l arrow_symbol).1 := by
  obtain ⟨sw, spos⟩ := _put2_skip2_spec h hlt arrow_symbol 62
  exact ⟨sw, spos, _make_token_sizeOk (wf_tbuf sw) _⟩

/-- Totality and preservation for `lex_logic_op`. -/
theorem lex_logic_op_spec {l : LexState} (h : wf l)
    (hlt : l.idx < l.bytesRead) (symbol : Int) :
    wf (lex_logic_op l symbol).2 ∧
    posLe (pos l) (pos (lex_logic_op l symbol).2) ∧
    tokenSizeOk (lex_logic_op l symbol).1 := by
  obtain ⟨sw, spos⟩ := _put2_skip2_spec h hlt symbol symbol
  unfold lex_logic_op
  split_ifs <;> exact ⟨sw, spos, _make_token_sizeOk (wf_tbuf sw) _⟩

/-- Totality and preservation for `lex_comparison_op`. -/
theorem lex_comparison_op_spec {l : LexState} (h : wf l)
    (hlt : l.idx < l.bytesRead) (current : Int) :
    wf (lex_comparison_op l current).2 ∧
    posLe (pos l) (pos (lex_comparison_op l current).2) ∧
    tokenSizeOk (lex_comparison_op l current).1 := by
  obtain ⟨kw, kav, kline, kcol, ktb, khist, kB, kK, ktr1, ktr2, kok⟩ :=
    lexer_peek_spec h
  unfold lex_comparison_op
  rcases hk : lexer_peek l with ⟨p, lp⟩
  rw [hk] at kw kav kline kcol ktb khist kB kK ktr1 ktr2 kok
  dsimp only at kw kav kline kcol ktb khist kB kK ktr1 ktr2 kok
  have hltp : lp.idx < lp.bytesRead := ktr2 hlt
  have hposp : posLe (pos l) (pos lp) := by
    simp only [pos, posLe]; omega
  dsimp only
  by_cases hp : p = 61
  · rw [if_pos hp]
    obtain ⟨sw, spos⟩ := _put2_skip2_spec kw hltp current 61
    exact ⟨sw, posLe_trans hposp spos, _make_token_sizeOk (wf_tbuf sw) _⟩
  · rw [if_neg hp]
    obtain ⟨sw, spos⟩ := _put_skip1_spec kw (le_of_lt hltp) current
    exact ⟨sw, posLe_trans hposp spos, _make_token_sizeOk (wf_tbuf sw) _⟩

/-- Totality and preservation for `lex_binary_op`. -/
theorem lex_binary_op_spec {l : LexState} (h : wf l)
    (hlt : l.idx < l.bytesRead) (current : Int) :
    wf (lex_binary_op l current).2 ∧
    posLe (pos l) (pos (lex_binary_op l current).2) ∧
    tokenSizeOk (lex_binary_op l current).1 := by
  obtain ⟨kw, kav, kline, kcol, ktb, khist, kB, kK, ktr1, ktr2, kok⟩ :=
    lexer_peek_spec h
  unfold lex_binary_op
  rcases hk : lexer_peek l with ⟨p, lp⟩
  rw [hk] at kw kav kline kcol ktb khist kB kK ktr1 ktr2 kok
  dsimp only at kw kav kline kcol ktb khist kB kK ktr1 ktr2 kok
  have hltp : lp.idx < lp.bytesRead := ktr2 hlt
  have hposp : posLe (pos l) (pos lp) := by
    simp only [pos, posLe]; omega
  dsimp only
  by_cases hp : p = 61
  · rw [if_pos hp]
    obtain ⟨sw, spos⟩ := _put2_skip2_spec kw hltp current 61
    exact ⟨sw, posLe_trans hposp spos, _make_token_sizeOk (wf_tbuf sw) _⟩
  · rw [if_neg hp]
    obtain ⟨sw, spos⟩ := _put_skip1_spec kw (le_of_lt hltp) current
    exact ⟨sw, posLe_trans hposp spos, _make_token_sizeOk (wf_tbuf sw) _⟩

/-- Totality and preservation for the operator tail of the dispatch. -/
theorem _dispatch_ops_spec {l : LexState} (h : wf l)
    (hlt : l.idx < l.bytesRead) (cur : Int) :
    ∃ t l', _dispatch_ops l cur = some (t, l') ∧ wf l' ∧
      posLe (pos l) (pos l') ∧ tokenSizeOk t := by
  unfold _dispatch_ops
  by_cases h1 : cur = 61 || cur = 33 || cur = 60 || cur = 62
  · rw [if_pos (by simpa using h1)]
    obtain ⟨w, p, t⟩ := lex_comparison_op_spec h hlt cur
    exact ⟨_, _, rfl, w, p, t⟩
  · rw [if_neg (by simpa using h1)]
    by_cases h2 : cur = 43 || cur = 45 || cur = 42 || cur = 47 || cur = 37
    · rw [if_pos (by simpa using h2)]
      obtain ⟨w, p, t⟩ := lex_binary_op_spec h hlt cur
      exact ⟨_, _, rfl, w, p, t⟩
    · rw [if_neg (by simpa using h2)]
      by_cases h3 : cur = 38 || cur = 124
      · rw [if_pos (by simpa using h3)]
        obtain ⟨kw, kav, kline, kcol, ktb, khist, kB, kK, ktr1, ktr2, kok⟩ :=
          lexer_peek_spec h
        rcases hk : lexer_peek l with ⟨p, lp⟩
        rw [hk] at kw kav kline kcol ktb khist kB kK ktr1 ktr2 kok
        dsimp only at kw kav kline kcol ktb khist kB kK ktr1 ktr2 kok
        have hltp : lp.idx < lp.bytesRead := ktr2 hlt
        have hposp : posLe (pos l) (pos lp) := by
          simp only [pos, posLe]; omega
        dsimp only
        by_cases hpc : p = cur
        · rw [if_pos hpc]
          obtain ⟨w, pp, t⟩ := lex_logic_op_spec kw hltp cur
          exact ⟨_, _, rfl, w, posLe_trans hposp pp, t⟩
        · rw [if_neg hpc]
          obtain ⟨w, pp, t⟩ := lex_single_symbol_spec kw (le_of_lt hltp) cur
          exact ⟨_, _, rfl, w, posLe_trans hposp pp, t⟩
      · rw [if_neg (by simpa using h3)]
        obtain ⟨w, pp, t⟩ := lex_single_symbol_spec h (le_of_lt hlt) cur
        exact ⟨_, _, rfl, w, pp, t⟩

/-- Totality and preservation for the main dispatch. -/
theorem _dispatch_main_spec {l : LexState} (h : wf l)
    (hlt : l.idx < l.bytesRead) (cur : Int) :
    ∃ t l', _dispatch_main l cur = some (t, l') ∧ wf l' ∧
      posLe (pos l) (pos l') ∧ tokenSizeOk t := by
  unfold _dispatch_main
  by_cases h1 : isalpha cur || cur = 95
  · rw [if_pos (by simpa using h1)]
    exact lex_identifier_spec h
  · rw [if_neg (by simpa using h1)]
    by_cases h2 : cur = 34 || cur = 39
    · rw [if_pos (by simpa using h2)]
      have hq : cur ≠ -1 := by
        have h2p : cur = 34 ∨ cur = 39 := by simpa using h2
        rcases h2p with hc | hc <;> omega
      exact lex_string_spec h (le_of_lt hlt) hq
    · rw [if_neg (by simpa using h2)]
      by_cases h3 : isdigit cur || cur = 46
      · rw [if_pos (by simpa using h3)]
        exact lex_number_or_dot_spec h (le_of_lt hlt) cur
      · rw [if_neg (by simpa using h3)]
        by_cases h4 : cur = 45 || cur = 61
        · rw [if_pos (by simpa using h4)]
          obtain ⟨kw, kav, kline, kcol, ktb, khist, kB, kK, ktr1, ktr2, kok⟩ :=
            lexer_peek_spec h
          rcases hk : lexer_peek l with ⟨p, lp⟩
          rw [hk] at kw kav kline kcol ktb khist kB kK ktr1 ktr2 kok
          dsimp only at kw kav kline kcol ktb khist kB kK ktr1 ktr2 kok
          have hltp : lp.idx < lp.bytesRead := ktr2 hlt
          have hposp : posLe (pos l) (pos lp) := by
            simp only [pos, posLe]; omega
          dsimp only
          by_cases hp62 : p = 62
          · rw [if_pos hp62]
            obtain ⟨w, pp, t⟩ := lex_arrow_spec kw hltp cur
            exact ⟨_, _, rfl, w, posLe_trans hposp pp, t⟩
          · rw [if_neg hp62]
            obtain ⟨t, l', he, w, pp, tt⟩ := _dispatch_ops_spec kw hltp cur
            exact ⟨t, l', he, w, posLe_trans hposp pp, tt⟩
        · rw [if_neg (by simpa using h4)]
          exact _dispatch_ops_spec h hlt cur

/-- Totality and preservation for the post-whitespace part of
`lexer_get_next`. -/
theorem _lex_after_ws_spec {l : LexState} (h : wf l) :
    ∃ t l', _lex_after_ws l = some (t, l') ∧ wf l' ∧
      posLe (pos l) (pos l') ∧ tokenSizeOk t := by
  obtain ⟨cw, cav, cline, ccol, ctb, chist, cB, cK, cpr, cne, ceof⟩ :=
    lexer_current_spec h
  unfold _lex_after_ws
  rcases hc : lexer_current l with ⟨cc, l2⟩
  rw [hc] at cw cav cline ccol ctb chist cB cK cpr cne ceof
  dsimp only at cw cav cline ccol ctb chist cB cK cpr cne ceof
  have hpos1 : posLe (pos l) (pos l2) := by
    simp only [pos, posLe]; omega
  dsimp only
  by_cases h1 : cc = -1
  · rw [if_pos h1]
    exact ⟨_, _, rfl, cw, hpos1, _make_token_sizeOk (wf_tbuf cw) _⟩
  · rw [if_neg h1]
    obtain ⟨hlt2, hz2, _⟩ := cne h1
    by_cases h47 : cc = 47
    · rw [if_pos h47]
      obtain ⟨kw, kav, kline, kcol, ktb, khist, kB, kK, ktr1, ktr2, kok⟩ :=
        lexer_peek_spec cw
      rcases hk : lexer_peek l2 with ⟨p1, l3⟩
      rw [hk] at kw kav kline kcol ktb khist kB kK ktr1 ktr2 kok
      dsimp only at kw kav kline kcol ktb khist kB kK ktr1 ktr2 kok
      have hlt3 : l3.idx < l3.bytesRead := ktr2 hlt2
      have hpos3 : posLe (pos l2) (pos l3) := by
        simp only [pos, posLe]; omega
      dsimp only
      by_cases hp1 : p1 = 47
      · rw [if_pos hp1]
        obtain ⟨t, l', he, w, pp, tt⟩ := lex_single_line_comment_spec kw hlt3
        exact ⟨t, l', he, w, posLe_trans hpos1 (posLe_trans hpos3 pp), tt⟩
      · rw [if_neg hp1]
        obtain ⟨mw, mav, mline, mcol, mtb, mhist, mB, mK, mtr1, mtr2, mok⟩ :=
          lexer_peek_spec kw
        rcases hm : lexer_peek l3 with ⟨p2, l4⟩
        rw [hm] at mw mav mline mcol mtb mhist mB mK mtr1 mtr2 mok
        dsimp only at mw mav mline mcol mtb mhist mB mK mtr1 mtr2 mok
        have hlt4 : l4.idx < l4.bytesRead := mtr2 hlt3
        have hpos4 : posLe (pos l3) (pos l4) := by
          simp only [pos, posLe]; omega
        dsimp only
        by_cases hp2 : p2 = 46
        · rw [if_pos hp2]
          obtain ⟨t, l', he, w, pp, tt⟩ := lex_multi_line_comment_spec mw hlt4
          exact ⟨t, l', he, w,
            posLe_trans hpos1 (posLe_trans hpos3 (posLe_trans hpos4 pp)), tt⟩
        · rw [if_neg hp2]
          obtain ⟨t, l', he, w, pp, tt⟩ := _dispatch_main_spec mw hlt4 cc
          exact ⟨t, l', he, w,
            posLe_trans hpos1 (posLe_trans hpos3 (posLe_trans hpos4 pp)), tt⟩
    · rw [if_neg h47]
      obtain ⟨t, l', he, w, pp, tt⟩ := _dispatch_main_spec cw hlt2 cc
      exact ⟨t, l', he, w, posLe_trans hpos1 pp, tt⟩

/-- Totality and preservation for `lexer_get_next`, with the state after
whitespace skipping exposed (its position is where the classified token
starts). -/
theorem lexer_get_next_pos_spec {l : LexState} (h : wf l) :
    ∃ l1 t l', lexer_skip_whitespace (_tbuf_reset l) = some l1 ∧
      lexer_get_next l = some (t, l') ∧ wf l1 ∧ wf l' ∧
      posLe (pos l) (pos l1) ∧ posLe (pos l1) (pos l') ∧ tokenSizeOk t := by
  obtain ⟨rw0, rav, rpos, ridx, rbr⟩ := _tbuf_reset_spec h
  obtain ⟨l1, hws, w1, p1, a1⟩ := lexer_skip_whitespace_spec rw0
  obtain ⟨t, l', he, w', pp, tt⟩ := _lex_after_ws_spec w1
  refine ⟨l1, t, l', hws, ?_, w1, w', ?_, pp, tt⟩
  · unfold lexer_get_next
    rw [hws]
    exact he
  · rw [← rpos]
    exact p1

/-- Totality and preservation for `lexer_get_next`. -/
theorem lexer_get_next_spec {l : LexState} (h : wf l) :
    ∃ t l', lexer_get_next l = some (t, l') ∧ wf l' ∧
      posLe (pos l) (pos l') ∧ tokenSizeOk t := by
  obtain ⟨l1, t, l', hws, he, w1, w', p1, pp, tt⟩ := lexer_get_next_pos_spec h
  exact ⟨t, l', he, w', posLe_trans p1 pp, tt⟩

end Zen

namespace Zen

/-- Claim C2: the spec says scanning "3.14.5" yields Number("3.14"),
Dot, Number("5").  The code's first call does produce Number("3.14") and
leaves the second dot unconsumed, but the next call re-enters
`lex_number_or_dot`, whose scan loop immediately sees the already-seen
dot with `dotSeen` true and `prev` still uninitialized, so it exits at
once with an empty token buffer: the second token is an empty Number
token (NULL lexeme), not a Dot token — and the cursor never moves, so
Number("5") is never reached either. -/
theorem C2_number_dot_rescan_stuck :
    (lexer_get_next (mkLexer 16 1 [51, 46, 49, 52, 46, 53])).map Prod.fst =
      some { type := Tok.TOKEN_NUMBER, lexeme := some [51, 46, 49, 52],
             len := 4 } ∧
    ((lexer_get_next (mkLexer 16 1 [51, 46, 49, 52, 46, 53])).bind
        (fun p => lexer_get_next p.2)).map Prod.fst =
      some { type := Tok.TOKEN_NUMBER, lexeme := none, len := 0 } ∧
    Tok.TOKEN_NUMBER ≠ Tok.TOKEN_DOT := by
  refine ⟨rfl, rfl, by decide⟩

/-- Claim C5: the spec says an unterminated block comment still yields a
Comment token whose lexeme is exactly the content scanned up to EOF.  On
the input `/.ab` (comment opener, then `ab`, then EOF) the code's scan
loop stores the return value of `lexer_pre_advance` — the byte advanced
*to*, not the byte advanced past — so the token's lexeme is the bytes
`b`, 0xFF (the final EOF return narrowed to a `char` and stored as byte
255) instead of the scanned content `ab`. -/
theorem C5_comment_lexeme_shifted :
    (lexer_get_next (mkLexer 16 1 [47, 46, 97, 98])).map Prod.fst =
      some { type := Tok.TOKEN_COMMENT, lexeme := some [98, 255],
             len := 2 } ∧
    (some [98, 255] : Option (List Nat)) ≠ some [97, 98] := by
  refine ⟨rfl, by decide⟩

end Zen

namespace Zen

/-- The whitespace skip is the identity on a primed state whose current
byte is a non-space byte or a newline. -/
theorem lexer_skip_whitespace_stop {l : LexState} (hz : l.bytesRead ≠ 0)
    (hlt : l.idx < l.bytesRead)
    (hns : isspace ((l.buf.getD l.idx 0 : Nat) : Int) = false ∨
      l.buf.getD l.idx 0 = 10) :
    lexer_skip_whitespace l = some l := by
  unfold lexer_skip_whitespace
  have e : skipWsLoop (avail l + 1) l =
      (let (c, l1) := lexer_current l
       if c = -1 then some l1
       else if ¬ isspace c then some l1
       else if c = 10 then some l1
       else skipWsLoop (avail l) (lexer_skip l1 1)) := rfl
  rw [e, lexer_current_val hz hlt]
  dsimp only
  rw [if_neg (by omega : ¬((l.buf.getD l.idx 0 : Nat) : Int) = -1)]
  rcases hns with hns | hns
  · rw [if_pos (by rw [hns]; decide)]
  · have h10 : ((l.buf.getD l.idx 0 : Nat) : Int) = 10 := by exact_mod_cast hns
    rw [if_neg (by rw [h10]; decide), if_pos h10]

/-- With a current byte that triggers none of the earlier classification
rules, `_lex_after_ws` falls through every dispatch level down to
`lex_single_symbol`. -/
theorem _lex_after_ws_to_single {l : LexState} (hz : l.bytesRead ≠ 0)
    (hlt : l.idx < l.bytesRead) {b : Nat} (hb : l.buf.getD l.idx 0 = b)
    (h47 : b ≠ 47) (halpha : isalpha (b : Int) = false) (h95 : b ≠ 95)
    (h34 : b ≠ 34) (h39 : b ≠ 39) (hdig : isdigit (b : Int) = false)
    (h46 : b ≠ 46) (h45 : b ≠ 45) (h61 : b ≠ 61) (h33 : b ≠ 33)
    (h60 : b ≠ 60) (h62 : b ≠ 62) (h43 : b ≠ 43) (h42 : b ≠ 42)
    (h37 : b ≠ 37) (h38 : b ≠ 38) (h124 : b ≠ 124) :
    _lex_after_ws l = some (lex_single_symbol l (b : Int)) := by
  have hcv : lexer_current l = (((b : Nat) : Int), l) := by
    rw [lexer_current_val hz hlt, hb]
  unfold _lex_after_ws
  rw [hcv]
  dsimp only
  rw [if_neg (by omega : ¬((b : Nat) : Int) = -1),
    if_neg (by omega : ¬((b : Nat) : Int) = 47)]
  unfold _dispatch_main _dispatch_ops
  split_ifs <;>
    first
      | rfl
      | (exfalso;
         simp_all only [Bool.or_eq_true, decide_eq_true_eq,
           Bool.false_eq_true, false_or, or_false];
         omega)

/-- The token emitted by `lex_single_symbol` from an empty token buffer on
a nonzero byte: the switch's kind, with the byte itself as lexeme. -/
theorem lex_single_symbol_token {l : LexState} (h : wf l)
    (hix : l.idx ≤ l.bytesRead) (htb : l.tbuf = []) {b : Nat}
    (hblt : b < 256) (hb0 : b ≠ 0) :
    (lex_single_symbol l (b : Int)).1 =
      { type :=
          if ((b : Nat) : Int) = 33 then Tok.TOKEN_NOT
          else if ((b : Nat) : Int) = 44 then Tok.TOKEN_COMMA
          else if ((b : Nat) : Int) = 40 then Tok.TOKEN_LT_PAREN
          else if ((b : Nat) : Int) = 41 then Tok.TOKEN_RT_PAREN
          else if ((b : Nat) : Int) = 91 then Tok.TOKEN_LT_BRACK
          else if ((b : Nat) : Int) = 93 then Tok.TOKEN_RT_BRACK
          else if ((b : Nat) : Int) = 123 then Tok.TOKEN_LT_BRACE
          else if ((b : Nat) : Int) = 125 then Tok.TOKEN_RT_BRACE
          else if ((b : Nat) : Int) = 10 then Tok.TOKEN_NEWLINE
          else Tok.TOKEN_INVALID,
        lexeme := some [b], len := 1 } := by
  have htobyte : toByte (b : Int) = b := by unfold toByte; omega
  have hput : _tbuf_put l (b : Int) = { l with tbuf := [b] } := by
    unfold _tbuf_put
    rw [if_pos (by rw [htb]; decide), htb, htobyte]
    rfl
  have hskip_tb : (lexer_skip (_tbuf_put l (b : Int)) 1).tbuf = [b] := by
    obtain ⟨pw, _⟩ := _tbuf_put_wf h (b : Int)
    have hixp : (_tbuf_put l (b : Int)).idx ≤
        (_tbuf_put l (b : Int)).bytesRead := by
      obtain ⟨_, _, _, _, qidx, qbr, _, _, _, _⟩ := _tbuf_put_spec l (b : Int)
      rw [qidx, qbr]; exact hix
    obtain ⟨_, _, _, stb, _, _, _⟩ := lexer_skip_one_spec pw hixp
    rw [stb, hput]
  unfold lex_single_symbol
  dsimp only
  rw [hskip_tb]
  unfold _make_token
  rw [if_neg (by simp : ¬([b].length = 0))]
  unfold token_create
  dsimp only
  have hc : cstr [b] = [b] := by simp [cstr, hb0]
  rw [hc]
  rfl

end Zen

namespace Zen

/-- Claim C7 (amended): the newline byte is classified as a Newline
token, but the semicolon byte is NOT — `lex_single_symbol`'s switch has
no `';'` case, so a semicolon falls to the default and is classified as
an Invalid token (carrying the semicolon as lexeme).  Statement
separators are not unified. -/
theorem C7_newline_vs_semicolon {l : LexState} (h : wf l)
    (hz : l.bytesRead ≠ 0) (hlt : l.idx < l.bytesRead) :
    (l.buf.getD l.idx 0 = 10 →
      (lexer_get_next l).map Prod.fst =
        some { type := Tok.TOKEN_NEWLINE, lexeme := some [10], len := 1 }) ∧
    (l.buf.getD l.idx 0 = 59 →
      (lexer_get_next l).map Prod.fst =
        some { type := Tok.TOKEN_INVALID, lexeme := some [59], len := 1 }) := by
  obtain ⟨rw0, _, _, _, _⟩ := _tbuf_reset_spec h
  constructor <;> intro hb
  · have hws : lexer_skip_whitespace (_tbuf_reset l) = some (_tbuf_reset l) :=
      lexer_skip_whitespace_stop hz hlt (Or.inr hb)
    unfold lexer_get_next
    rw [hws]
    dsimp only
    rw [_lex_after_ws_to_single (l := _tbuf_reset l) hz hlt hb (by decide)
      (by decide) (by decide) (by decide) (by decide) (by decide) (by decide)
      (by decide) (by decide) (by decide) (by decide) (by decide) (by decide)
      (by decide) (by decide) (by decide) (by decide)]
    dsimp only [Option.map]
    rw [lex_single_symbol_token rw0 (le_of_lt hlt) rfl (by decide) (by decide)]
    decide
  · have hws : lexer_skip_whitespace (_tbuf_reset l) = some (_tbuf_reset l) :=
      lexer_skip_whitespace_stop hz hlt
        (Or.inl (by show isspace ((l.buf.getD l.idx 0 : Nat) : Int) = false
                    rw [hb]; decide))
    unfold lexer_get_next
    rw [hws]
    dsimp only
    rw [_lex_after_ws_to_single (l := _tbuf_reset l) hz hlt hb (by decide)
      (by decide) (by decide) (by decide) (by decide) (by decide) (by decide)
      (by decide) (by decide) (by decide) (by decide) (by decide) (by decide)
      (by decide) (by decide) (by decide) (by decide)]
    dsimp only [Option.map]
    rw [lex_single_symbol_token rw0 (le_of_lt hlt) rfl (by decide) (by decide)]
    decide

/-- Claim C7, counterexample to the original statement: lexing a lone
semicolon produces an Invalid token, not a Newline token. -/
theorem C7_counterexample :
    (lexer_get_next (mkLexer 8 1 [59])).map Prod.fst =
      some { type := Tok.TOKEN_INVALID, lexeme := some [59], len := 1 } ∧
    Tok.TOKEN_INVALID ≠ Tok.TOKEN_NEWLINE := by
  refine ⟨rfl, by decide⟩

/-- Claim C7, witness: the amended theorem applied to a concrete primed
state whose current byte is a newline. -/
theorem C7_witness :
    (lexer_get_next ((_prime (mkLexer 8 1 [10])).2)).map Prod.fst =
      some { type := Tok.TOKEN_NEWLINE, lexeme := some [10], len := 1 } :=
  (C7_newline_vs_semicolon (by unfold wf; decide) (by decide) (by decide)).1
    (by decide)

end Zen

namespace Zen

/-- Claim C1 (amended): from any well-formed state, `lexer_get_next`
always returns a size-sane token and a well-formed state (never fails);
and for any current byte that matches no earlier classification rule
*and is not the NUL byte*, the returned token is Invalid with exactly
that byte as lexeme.  The NUL restriction is the needed amendment: a
NUL fallback byte yields an Invalid token whose lexeme is the empty
C string, not the one-byte lexeme the claim asserts. -/
theorem C1_total_and_fallback :
    (∀ l : LexState, wf l →
      ∃ t l', lexer_get_next l = some (t, l') ∧ wf l' ∧ tokenSizeOk t) ∧
    (∀ (l : LexState) (b : Nat), wf l → l.bytesRead ≠ 0 →
      l.idx < l.bytesRead → l.buf.getD l.idx 0 = b → b < 256 → b ≠ 0 →
      fallbackByte b →
      (lexer_get_next l).map Prod.fst =
        some { type := Tok.TOKEN_INVALID, lexeme := some [b], len := 1 }) := by
  constructor
  · intro l h
    obtain ⟨t, l', he, w', _, tt⟩ := lexer_get_next_spec h
    exact ⟨t, l', he, w', tt⟩
  · intro l b h hz hlt hb hblt hb0 hfb
    obtain ⟨h47, halpha, h95, h34, h39, hdig, h46, h45, h61, h33, h60, h62,
      h43, h42, h37, h38, h124, h44, h40, h41, h91, h93, h123, h125, hsp⟩ :=
      hfb
    obtain ⟨rw0, _, _, _, _⟩ := _tbuf_reset_spec h
    have hws : lexer_skip_whitespace (_tbuf_reset l) = some (_tbuf_reset l) :=
      lexer_skip_whitespace_stop hz hlt
        (Or.inl (by show isspace ((l.buf.getD l.idx 0 : Nat) : Int) = false
                    rw [hb]; exact hsp))
    unfold lexer_get_next
    rw [hws]
    dsimp only
    rw [_lex_after_ws_to_single (l := _tbuf_reset l) hz hlt hb h47 halpha h95
      h34 h39 hdig h46 h45 h61 h33 h60 h62 h43 h42 h37 h38 h124]
    dsimp only [Option.map]
    rw [lex_single_symbol_token rw0 (le_of_lt hlt) rfl hblt hb0]
    have h10 : b ≠ 10 := by
      intro he
      rw [he] at hsp
      exact absurd hsp (by decide)
    have htype :
        (if ((b : Nat) : Int) = 33 then Tok.TOKEN_NOT
         else if ((b : Nat) : Int) = 44 then Tok.TOKEN_COMMA
         else if ((b : Nat) : Int) = 40 then Tok.TOKEN_LT_PAREN
         else if ((b : Nat) : Int) = 41 then Tok.TOKEN_RT_PAREN
         else if ((b : Nat) : Int) = 91 then Tok.TOKEN_LT_BRACK
         else if ((b : Nat) : Int) = 93 then Tok.TOKEN_RT_BRACK
         else if ((b : Nat) : Int) = 123 then Tok.TOKEN_LT_BRACE
         else if ((b : Nat) : Int) = 125 then Tok.TOKEN_RT_BRACE
         else if ((b : Nat) : Int) = 10 then Tok.TOKEN_NEWLINE
         else Tok.TOKEN_INVALID) = Tok.TOKEN_INVALID := by
      rw [if_neg (show ¬((b : Nat) : Int) = 33 by omega),
        if_neg (show ¬((b : Nat) : Int) = 44 by omega),
        if_neg (show ¬((b : Nat) : Int) = 40 by omega),
        if_neg (show ¬((b : Nat) : Int) = 41 by omega),
        if_neg (show ¬((b : Nat) : Int) = 91 by omega),
        if_neg (show ¬((b : Nat) : Int) = 93 by omega),
        if_neg (show ¬((b : Nat) : Int) = 123 by omega),
        if_neg (show ¬((b : Nat) : Int) = 125 by omega),
        if_neg (show ¬((b : Nat) : Int) = 10 by omega)]
    rw [htype]

/-- Claim C1, counterexample to the original statement: the NUL byte
matches no earlier rule, yet the returned Invalid token's lexeme is the
empty C string (the copied lexeme is truncated at its first NUL), not
the one-byte lexeme `[0]`. -/
theorem C1_counterexample :
    (lexer_get_next (mkLexer 8 1 [0])).map Prod.fst =
      some { type := Tok.TOKEN_INVALID, lexeme := some [], len := 0 } ∧
    (some [] : Option (List Nat)) ≠ some [0] := by
  refine ⟨rfl, by decide⟩

/-- Claim C1, witness: the amended theorem applied at a concrete primed
state whose current byte is `'@'` (64), a fallback byte. -/
theorem C1_witness :
    (lexer_get_next ((_prime (mkLexer 8 1 [64])).2)).map Prod.fst =
      some { type := Tok.TOKEN_INVALID, lexeme := some [64], len := 1 } :=
  C1_total_and_fallback.2 _ 64 (by unfold wf; decide) (by decide) (by decide)
    (by decide) (by decide) (by decide) (by unfold fallbackByte; decide)

end Zen

namespace Zen

/-- Claim C6 (amended): inside a string literal each of the escape
sequences over n, t, backslash, double quote and single quote is replaced
by its single escaped character, and every other escaped byte x — *other
than the NUL byte* — passes through as the two-byte sequence backslash-x;
the spec's round-trip example holds: the literal spelling a backslash n b
between single quotes lexes to the three bytes a, LF, b.  The NUL
restriction is the needed amendment: an escaped NUL truncates the stored
lexeme at the copied C string's terminator. -/
theorem C6_escape_sequences :
    (∀ x : Fin 256, x.val ≠ 0 → x.val ≠ 110 → x.val ≠ 116 → x.val ≠ 92 →
      x.val ≠ 34 → x.val ≠ 39 →
      (lexer_get_next (mkLexer 8 1 [39, 97, 92, x.val, 98, 39])).map
          Prod.fst =
        some { type := Tok.TOKEN_STRING, lexeme := some [97, 92, x.val, 98],
               len := 4 }) ∧
    (lexer_get_next (mkLexer 8 1 [39, 97, 92, 110, 98, 39])).map Prod.fst =
      some { type := Tok.TOKEN_STRING, lexeme := some [97, 10, 98],
             len := 3 } ∧
    (lexer_get_next (mkLexer 8 1 [39, 97, 92, 116, 98, 39])).map Prod.fst =
      some { type := Tok.TOKEN_STRING, lexeme := some [97, 9, 98],
             len := 3 } ∧
    (lexer_get_next (mkLexer 8 1 [39, 97, 92, 92, 98, 39])).map Prod.fst =
      some { type := Tok.TOKEN_STRING, lexeme := some [97, 92, 98],
             len := 3 } ∧
    (lexer_get_next (mkLexer 8 1 [39, 97, 92, 34, 98, 39])).map Prod.fst =
      some { type := Tok.TOKEN_STRING, lexeme := some [97, 34, 98],
             len := 3 } ∧
    (lexer_get_next (mkLexer 8 1 [39, 97, 92, 39, 98, 39])).map Prod.fst =
      some { type := Tok.TOKEN_STRING, lexeme := some [97, 39, 98],
             len := 3 } := by
  refine ⟨?_, rfl, rfl, rfl, rfl, rfl⟩
  set_option maxRecDepth 10000 in decide

/-- Claim C6, counterexample to the original statement: an escaped NUL
byte is not passed through as backslash-NUL; the stored lexeme is cut at
the NUL when the C string is copied, leaving just the backslash. -/
theorem C6_counterexample :
    (lexer_get_next (mkLexer 8 1 [39, 92, 0, 98, 39])).map Prod.fst =
      some { type := Tok.TOKEN_STRING, lexeme := some [92], len := 1 } ∧
    (some [92] : Option (List Nat)) ≠ some [92, 0, 98] := by
  refine ⟨rfl, by decide⟩

/-- Claim C6, witness: the pass-through arm applied at the concrete
escaped byte 77. -/
theorem C6_witness :
    (lexer_get_next (mkLexer 8 1 [39, 97, 92, 77, 98, 39])).map Prod.fst =
      some { type := Tok.TOKEN_STRING, lexeme := some [97, 92, 77, 98],
             len := 4 } :=
  C6_escape_sequences.1 ⟨77, by decide⟩ (by decide) (by decide) (by decide)
    (by decide) (by decide) (by decide)

end Zen

namespace Zen

/-- Claim C8 (amended): `_make_token` hands a lexeme to `token_create`
exactly when the scanned spelling is non-empty — for a non-empty token
buffer the lexeme is present (the buffer's C-string contents), but for an
empty buffer the lexeme pointer stays NULL.  In particular the empty
string literal, a variable-length kind, yields a String token with *no*
lexeme, refuting the original claim's "including empty string
literals". -/
theorem C8_lexeme_presence :
    (∀ (ty : Tok) (tb : List Nat), tb ≠ [] →
      (_make_token ty tb).lexeme = some (cstr tb)) ∧
    (∀ ty : Tok, (_make_token ty []).lexeme = none) ∧
    (lexer_get_next (mkLexer 8 1 [39, 39])).map Prod.fst =
      some { type := Tok.TOKEN_STRING, lexeme := none, len := 0 } := by
  refine ⟨?_, fun ty => rfl, rfl⟩
  intro ty tb htb
  unfold _make_token
  rw [if_neg (by simpa using htb)]
  rfl

/-- Claim C8, counterexample to the original statement: lexing the empty
string literal produces a String token whose lexeme is absent (NULL),
not a present empty lexeme. -/
theorem C8_counterexample :
    (lexer_get_next (mkLexer 8 1 [39, 39])).map Prod.fst =
      some { type := Tok.TOKEN_STRING, lexeme := none, len := 0 } ∧
    (none : Option (List Nat)) ≠ some [] := by
  refine ⟨rfl, by decide⟩

/-- Claim C8, witness: the presence arm applied at a concrete non-empty
token buffer, and the absence arm at the empty buffer. -/
theorem C8_witness :
    (_make_token Tok.TOKEN_STRING [97]).lexeme = some (cstr [97]) ∧
    (_make_token Tok.TOKEN_STRING []).lexeme = none :=
  ⟨C8_lexeme_presence.1 Tok.TOKEN_STRING [97] (by decide),
   C8_lexeme_presence.2.1 Tok.TOKEN_STRING⟩

/-- Claim C10: every token `lexer_get_next` produces from a well-formed
state has `len` and lexeme length strictly below `ZLANG_TOKSIZ`; the
token-buffer writer `_tbuf_put` is a no-op once the buffer cannot take
one more byte plus the NUL terminator, and it never touches the input
cursor or byte source, so input consumption continues silently while
excess lexeme bytes are dropped. -/
theorem C10_token_size_bound :
    (∀ l : LexState, wf l → ∀ t l', lexer_get_next l = some (t, l') →
      t.len < TOKSIZ ∧ ∀ s, t.lexeme = some s → s.length < TOKSIZ) ∧
    (∀ (l : LexState) (c : Int), TOKSIZ ≤ l.tbuf.length + 1 →
      _tbuf_put l c = l) ∧
    (∀ (l : LexState) (c : Int),
      (_tbuf_put l c).idx = l.idx ∧
      (_tbuf_put l c).bytesRead = l.bytesRead ∧
      (_tbuf_put l c).fp = l.fp ∧ (_tbuf_put l c).buf = l.buf) := by
  refine ⟨?_, ?_, ?_⟩
  · intro l h t l' he
    obtain ⟨t0, l0', he0, _, _, tt⟩ := lexer_get_next_spec h
    rw [he0] at he
    injection he with hpair
    injection hpair with h1 h2
    rw [← h1]
    exact tt
  · intro l c hfull
    unfold _tbuf_put
    rw [if_neg (by omega)]
  · intro l c
    unfold _tbuf_put
    split <;> exact ⟨rfl, rfl, rfl, rfl⟩

/-- Claim C10, witness: the produced-token arm applied at a concrete
well-formed state (empty input, so the produced token is EOF). -/
theorem C10_witness :
    ({ type := Tok.TOKEN_EOF, lexeme := none, len := 0 } : Token).len <
      TOKSIZ ∧
    ∀ s, ({ type := Tok.TOKEN_EOF, lexeme := none, len := 0 } :
        Token).lexeme = some s → s.length < TOKSIZ :=
  C10_token_size_bound.1 (mkLexer 4 1 []) (by unfold wf; decide)
    { type := Tok.TOKEN_EOF, lexeme := none, len := 0 }
    { B := 4, K := 1, fp := [], buf := [0, 0, 0, 0], idx := 1,
      bytesRead := 1, line := 1, col := 1, tbuf := [], hist := [] } rfl

end Zen

namespace Zen

/-- `nextN` can also be computed by appending the last call: running
`n + 1` calls is running `n` calls and then one more. -/
theorem nextN_succ_back : ∀ (n : Nat) (l : LexState),
    nextN (n + 1) l =
      (match nextN n l with
       | none => none
       | some s =>
         match lexer_get_next s with
         | none => none
         | some p => some p.2) := by
  intro n
  induction n with
  | zero =>
    intro l
    have h0 : nextN 0 l = some l := rfl
    have hL : nextN 1 l =
        (match lexer_get_next l with
         | none => none
         | some p => nextN 0 p.2) := rfl
    rw [h0, hL]
    dsimp only
    rcases lexer_get_next l with _ | p <;> rfl
  | succ n ih =>
    intro l
    have hL : nextN (n + 1 + 1) l =
        (match lexer_get_next l with
         | none => none
         | some p => nextN (n + 1) p.2) := rfl
    have hR : nextN (n + 1) l =
        (match lexer_get_next l with
         | none => none
         | some p => nextN n p.2) := rfl
    rw [hL, hR]
    rcases lexer_get_next l with _ | p
    · rfl
    · exact ih p.2

/-- Totality and preservation for `n` successive `lexer_get_next`
calls. -/
theorem nextN_spec : ∀ (n : Nat) {l : LexState}, wf l →
    ∃ s, nextN n l = some s ∧ wf s ∧ posLe (pos l) (pos s) := by
  intro n
  induction n with
  | zero => intro l h; exact ⟨l, rfl, h, posLe_refl _⟩
  | succ n ih =>
    intro l h
    obtain ⟨t, l', he, w', pp, _⟩ := lexer_get_next_spec h
    obtain ⟨s, hs, ws, ps⟩ := ih w'
    refine ⟨s, ?_, ws, posLe_trans pp ps⟩
    show (match lexer_get_next l with
          | none => none
          | some p => nextN n p.2) = some s
    rw [he]
    exact hs

/-- From a well-formed state, every token's start position is defined. -/
theorem startPosN_total (n : Nat) {l : LexState} (h : wf l) :
    ∃ p, startPosN l n = some p := by
  obtain ⟨s, hs, ws, _⟩ := nextN_spec n h
  obtain ⟨rw0, _, _, _, _⟩ := _tbuf_reset_spec ws
  obtain ⟨s1, hws, _, _, _⟩ := lexer_skip_whitespace_spec rw0
  refine ⟨pos s1, ?_⟩
  unfold startPosN
  rw [hs]
  dsimp only
  rw [hws]

/-- One `lexer_get_next` call never moves the recorded start position
backwards: the (n+1)-st token starts no earlier than the n-th. -/
theorem startPosN_le_succ {l : LexState} (h : wf l) {n : Nat}
    {p q : Nat × Nat} (hp : startPosN l n = some p)
    (hq : startPosN l (n + 1) = some q) : posLe p q := by
  unfold startPosN at hp hq
  rcases hs : nextN n l with _ | s
  · rw [hs] at hp; cases hp
  · obtain ⟨s', hs', ws, _⟩ := nextN_spec n h
    rw [hs] at hs'
    injection hs' with hs'
    subst hs'
    rw [hs] at hp
    dsimp only at hp
    obtain ⟨l1, t, l', hws, hgn, w1, w', p1, pp, _⟩ :=
      lexer_get_next_pos_spec ws
    rw [hws] at hp
    dsimp only at hp
    injection hp with hp
    rw [nextN_succ_back, hs] at hq
    dsimp only at hq
    rw [hgn] at hq
    dsimp only at hq
    obtain ⟨rw0, _, rpos, _, _⟩ := _tbuf_reset_spec w'
    obtain ⟨l1', hws', w1', p1', _⟩ := lexer_skip_whitespace_spec rw0
    rw [hws'] at hq
    dsimp only at hq
    injection hq with hq
    rw [← hp, ← hq]
    refine posLe_trans pp ?_
    rw [← rpos]
    exact p1'

/-- Monotonicity across any gap of `d` further calls. -/
theorem startPosN_mono_aux : ∀ (d i : Nat) {l : LexState}, wf l →
    ∀ p q, startPosN l i = some p → startPosN l (i + d) = some q →
      posLe p q := by
  intro d
  induction d with
  | zero =>
    intro i l h p q hp hq
    rw [Nat.add_zero] at hq
    rw [hp] at hq
    injection hq with hq
    rw [hq]
    exact posLe_refl _
  | succ d ih =>
    intro i l h p q hp hq
    obtain ⟨r, hr⟩ := startPosN_total (i + d) h
    exact posLe_trans (ih i h p r hp hr) (startPosN_le_succ h hr hq)

/-- Claim C9: positions are recorded by the lexer, not stored in the
token structure (`struct token_s` has no line/column fields); the
position recorded for a token is the lexer's (line, column) when the
token's first significant byte becomes current, i.e. right after the
whitespace skip that opens its `lexer_get_next` call (`startPosN`).
For any two tokens with the earlier produced by an earlier call, the
recorded positions are lexicographically non-decreasing. -/
theorem C9_position_monotonicity (l : LexState) (h : wf l) (i j : Nat)
    (hij : i ≤ j) (p q : Nat × Nat) (hp : startPosN l i = some p)
    (hq : startPosN l j = some q) : posLe p q := by
  obtain ⟨d, rfl⟩ := Nat.exists_eq_add_of_le hij
  exact startPosN_mono_aux d i h p q hp hq

/-- Claim C9, witness: on the input `a b`, token 0 starts at (1,1) and
token 1 starts at (1,3). -/
theorem C9_witness : posLe (1, 1) (1, 3) :=
  C9_position_monotonicity (mkLexer 8 1 [97, 32, 98]) (by unfold wf; decide)
    0 1 (by decide) (1, 1) (1, 3) rfl rfl

end Zen

namespace Zen

/-- Indexing below the written region of `writeAt`. -/
theorem getD_writeAt_left {buf data : List Nat} {off k : Nat} (hk : k < off)
    (hoff : off ≤ buf.length) :
    (writeAt buf off data).getD k 0 = buf.getD k 0 := by
  unfold writeAt
  rw [List.getD_eq_getElem?_getD, List.getD_eq_getElem?_getD]
  rw [List.append_assoc, List.getElem?_append_left
    (by rw [List.length_take]; omega)]
  rw [List.getElem?_take, if_pos hk]

/-- Indexing inside the written region of `writeAt`. -/
theorem getD_writeAt_mid {buf data : List Nat} {off j : Nat}
    (hj : j < data.length) (hoff : off ≤ buf.length) :
    (writeAt buf off data).getD (off + j) 0 = data.getD j 0 := by
  unfold writeAt
  rw [List.getD_eq_getElem?_getD, List.getD_eq_getElem?_getD]
  rw [List.append_assoc, List.getElem?_append_right
    (by rw [List.length_take]; omega)]
  rw [List.getElem?_append_left (by rw [List.length_take]; omega)]
  have hlen : (List.take off buf).length = off := by
    rw [List.length_take]; omega
  rw [hlen, Nat.add_sub_cancel_left]

/-- `getD` through `take`, within the kept prefix. -/
theorem getD_take {l : List Nat} {n m : Nat} (h : m < n) :
    (l.take n).getD m 0 = l.getD m 0 := by
  rw [List.getD_eq_getElem?_getD, List.getD_eq_getElem?_getD,
    List.getElem?_take, if_pos h]

/-- `getD` through `drop`. -/
theorem getD_drop (l : List Nat) (n m : Nat) :
    (l.drop n).getD m 0 = l.getD (n + m) 0 := by
  rw [List.getD_eq_getElem?_getD, List.getD_eq_getElem?_getD,
    List.getElem?_drop]

/-- Buffer contents after `_slide_refill` in the situation in which
`_ensure_ahead` calls it (cursor on the last valid byte, so the unread
tail is empty): the moved window puts the byte at `idx - j` at offset
`K - j` — the *current, not yet consumed* byte lands at offset `K` — and
the freshly read bytes start at offset `K + 1`. -/
theorem _slide_refill_layout {l : LexState} (h : wf l)
    (hix : l.idx + 1 = l.bytesRead) :
    (_slide_refill l).1 = min (l.B - (l.K + 1)) l.fp.length ∧
    (∀ j : Nat, j < min l.K (l.idx + 1) →
      (_slide_refill l).2.buf.getD (l.K - j) 0 = l.buf.getD (l.idx - j) 0) ∧
    (∀ j : Nat, j < (_slide_refill l).1 →
      (_slide_refill l).2.buf.getD (l.K + 1 + j) 0 = l.fp.getD j 0) := by
  obtain ⟨hbl, hbr, hidx2, hh2, hK, hKB, hB64, htb2⟩ := h
  have htail : l.bytesRead - (l.idx + 1) = 0 := by omega
  have hpair : _slide_refill l =
      (min (l.B - (l.K + 1)) l.fp.length,
       { l with
          buf := writeAt
            (writeAt l.buf (l.K + 1 - min l.K (l.idx + 1))
              ((l.buf.drop (l.idx + 1 - min l.K (l.idx + 1))).take
                (min l.K (l.idx + 1))))
            (l.K + 1)
            (l.fp.take (min (l.B - (l.K + 1)) l.fp.length))
          idx := l.K
          bytesRead := l.K + 1 + min (l.B - (l.K + 1)) l.fp.length
          fp := l.fp.drop (min (l.B - (l.K + 1)) l.fp.length) }) := by
    unfold _slide_refill
    dsimp only
    rw [htail, Nat.add_zero]
    rw [if_pos (show min l.K (l.idx + 1) ≠ 0 by omega),
      if_neg (show ¬((0 : Nat) ≠ 0) by omega),
      if_pos (show l.K + 1 < l.B from hKB),
      if_pos (show 0 < l.B - (l.K + 1) by omega)]
  rw [hpair]
  dsimp only
  have hwlen : (writeAt l.buf (l.K + 1 - min l.K (l.idx + 1))
      ((l.buf.drop (l.idx + 1 - min l.K (l.idx + 1))).take
        (min l.K (l.idx + 1)))).length = l.B := by
    have : (((l.buf.drop (l.idx + 1 - min l.K (l.idx + 1))).take
        (min l.K (l.idx + 1)))).length = min l.K (l.idx + 1) := by
      rw [List.length_take, List.length_drop]
      omega
    unfold writeAt
    rw [List.length_append, List.length_append, List.length_take,
      List.length_drop, this]
    omega
  refine ⟨rfl, ?_, ?_⟩
  · intro j hj
    rw [getD_writeAt_left (by omega) (by rw [hwlen]; omega)]
    rw [show l.K - j = (l.K + 1 - min l.K (l.idx + 1)) +
        (min l.K (l.idx + 1) - 1 - j) from by omega]
    rw [getD_writeAt_mid
      (by rw [List.length_take, List.length_drop]; omega)
      (by rw [hbl]; omega)]
    rw [getD_take (by omega), getD_drop]
    congr 1
    omega
  · intro j hj
    rw [getD_writeAt_mid
      (by rw [List.length_take]; omega)
      (by rw [hwlen]; omega)]
    rw [getD_take (by omega)]

/-- Claim C3 (amended): when a refill triggers (the cursor sits on the
last valid byte), `_slide_refill` repositions the cursor to offset `K`
and moves the window of `min K (idx+1)` bytes *ending at the current,
still unconsumed byte* so that the current byte lands at offset `K`;
hence only `min K (idx+1) - 1` already-consumed bytes survive (at
offsets below `K`), the front of the buffer below them is stale, and
fresh bytes are read to offset `K + 1` on.  An immediately following
unget succeeds and lands at offset `K - 1`, which holds the byte
actually consumed last only when `K ≥ 2` — not for every configuration,
as the original "last K consumed bytes at offsets 0..K" wording
implies. -/
theorem C3_refill_window (l : LexState) (h : wf l)
    (hix : l.idx + 1 = l.bytesRead) :
    (_slide_refill l).2.idx = l.K ∧
    (_slide_refill l).1 = min (l.B - (l.K + 1)) l.fp.length ∧
    (_slide_refill l).2.bytesRead = l.K + 1 + (_slide_refill l).1 ∧
    (∀ j : Nat, j < min l.K (l.idx + 1) →
      (_slide_refill l).2.buf.getD (l.K - j) 0 = l.buf.getD (l.idx - j) 0) ∧
    (∀ j : Nat, j < (_slide_refill l).1 →
      (_slide_refill l).2.buf.getD (l.K + 1 + j) 0 = l.fp.getD j 0) ∧
    (l.hist ≠ [] →
      (lexer_unget (_slide_refill l).2).1 = true ∧
      (lexer_unget (_slide_refill l).2).2.idx = l.K - 1) ∧
    (2 ≤ l.K → 1 ≤ l.idx →
      (lexer_unget (_slide_refill l).2).2.buf.getD (l.K - 1) 0 =
        l.buf.getD (l.idx - 1) 0) := by
  obtain ⟨he1, he2, he3, he4, he5, he6, he7, he8, he9⟩ := _slide_refill_easy l
  obtain ⟨hg, hwin, hfr⟩ := _slide_refill_layout h hix
  have hK := wf_K h
  have htail : l.bytesRead - (l.idx + 1) = 0 := by omega
  have hbuf_unget : (lexer_unget (_slide_refill l).2).2.buf =
      (_slide_refill l).2.buf := by
    unfold lexer_unget
    split
    · rfl
    · split <;> rfl
  refine ⟨he1, hg, by rw [he8]; omega, hwin, hfr, ?_, ?_⟩
  · intro hh
    have hh' : (_slide_refill l).2.hist ≠ [] := by rw [he5]; exact hh
    have hi' : (_slide_refill l).2.idx ≠ 0 := by rw [he1]; omega
    rw [lexer_unget_succ hh' hi']
    exact ⟨rfl, by rw [he1]⟩
  · intro hK2 hidx1
    rw [hbuf_unget]
    exact hwin 1 (by omega)

/-- Claim C3, counterexample to the original statement: with `K = 1`,
capacity 4 and the input `abcde`, two advances consume `a` and `b`
(returning 98 and 99); the peek then triggers a refill, after which an
immediate unget succeeds but lands the cursor on the buffer's stale
offset 0, reading byte 0 — not `b` (98), the byte actually consumed
last.  Unget validity is not preserved across this refill boundary. -/
theorem C3_counterexample :
    (lexer_pre_advance
        ((_prime (mkLexer 4 1 [97, 98, 99, 100, 101])).2)).1 = 98 ∧
    (lexer_pre_advance (lexer_pre_advance
        ((_prime (mkLexer 4 1 [97, 98, 99, 100, 101])).2)).2).1 = 99 ∧
    (lexer_unget (lexer_peek (lexer_pre_advance (lexer_pre_advance
        ((_prime (mkLexer 4 1 [97, 98, 99, 100, 101])).2)).2).2).2).1 =
      true ∧
    (lexer_current (lexer_unget (lexer_peek (lexer_pre_advance
        (lexer_pre_advance ((_prime (mkLexer 4 1
          [97, 98, 99, 100, 101])).2)).2).2).2).2).1 = 0 ∧
    (0 : Int) ≠ 98 := by
  refine ⟨rfl, rfl, rfl, rfl, by decide⟩

/-- Claim C3, witness: the amended theorem applied at a concrete state
with `K = 2` (capacity 8, input `abc`, two advances bring the cursor to
the last valid byte); the unget after the refill lands at offset 1,
which holds the byte consumed last (98). -/
theorem C3_witness :
    (lexer_unget (_slide_refill ((lexer_pre_advance (lexer_pre_advance
        ((_prime (mkLexer 8 2 [97, 98, 99])).2)).2).2)).2).2.buf.getD
        (2 - 1) 0 =
      ((lexer_pre_advance (lexer_pre_advance
        ((_prime (mkLexer 8 2 [97, 98, 99])).2)).2).2).buf.getD (4 - 1) 0 :=
  (C3_refill_window _ (by unfold wf; decide) (by decide)).2.2.2.2.2.2
    (by decide) (by decide)

end Zen

namespace Zen

/-- `ungIter` can also be computed by appending the last unget. -/
theorem ungIter_succ_back : ∀ (n : Nat) (m : LexState),
    ungIter (n + 1) m = (lexer_unget (ungIter n m)).2 := by
  intro n
  induction n with
  | zero => intro m; rfl
  | succ n ih =>
    intro m
    have h1 : ungIter (n + 1 + 1) m = ungIter (n + 1) (lexer_unget m).2 := rfl
    rw [h1, ih]
    rfl

/-- Lower bound on the cursor after `n` consuming advances: each advance
either increments the cursor or (after a refill) lands it at `K + 1`. -/
theorem advIter_lower : ∀ (n : Nat) (l : LexState), wf l →
    l.idx ≤ l.bytesRead → consumesN n l = true →
    wf (advIter n l) ∧ (advIter n l).idx ≤ (advIter n l).bytesRead ∧
    (advIter n l).K = l.K ∧
    min (l.idx + n) (l.K + 1) ≤ (advIter n l).idx := by
  intro n
  induction n with
  | zero =>
    intro l h hix _
    exact ⟨h, hix, rfl, (show min (l.idx + 0) (l.K + 1) ≤ l.idx by omega)⟩
  | succ n ih =>
    intro l h hix hc
    simp only [consumesN, Bool.and_eq_true, bne_iff_ne] at hc
    obtain ⟨hne, hrest⟩ := hc
    obtain ⟨w1, _, _, _, _, hK1, cons⟩ := lexer_pre_advance_spec h hix
    obtain ⟨_, hix1, hidx1, _⟩ := cons hne
    obtain ⟨w, hixn, hK, hmin⟩ := ih (lexer_pre_advance l).2 w1 hix1 hrest
    refine ⟨w, hixn,
      (show (advIter n (lexer_pre_advance l).2).K = l.K by rw [hK, hK1]), ?_⟩
    have hstep : min (l.idx + (n + 1)) (l.K + 1) ≤
        min ((lexer_pre_advance l).2.idx + n)
          ((lexer_pre_advance l).2.K + 1) := by
      rw [hK1]
      rcases hidx1 with h1 | h1 <;> rw [h1] <;> omega
    exact le_trans hstep hmin

/-- Round trip of `n` consuming advances followed by `n` ungets, from a
state with `n` free history slots: every unget succeeds, and the
recorded line, column and history are restored exactly; the cursor ends
`n` below wherever the advances left it (which is *not* in general its
original offset, because a refill moves it). -/
theorem adv_unget_roundtrip : ∀ (n : Nat) (l : LexState), wf l →
    l.idx ≤ l.bytesRead → n + l.hist.length ≤ l.K → consumesN n l = true →
    (∀ j, j < n → (lexer_unget (ungIter j (advIter n l))).1 = true) ∧
    (advIter n l).idx = (ungIter n (advIter n l)).idx + n ∧
    (ungIter n (advIter n l)).line = l.line ∧
    (ungIter n (advIter n l)).col = l.col ∧
    (ungIter n (advIter n l)).hist = l.hist := by
  intro n
  induction n with
  | zero =>
    intro l h hix _ _
    exact ⟨fun j hj => absurd hj (by omega), rfl, rfl, rfl, rfl⟩
  | succ n ih =>
    intro l h hix hroom hc
    simp only [consumesN, Bool.and_eq_true, bne_iff_ne] at hc
    obtain ⟨hne, hrest⟩ := hc
    obtain ⟨w1, _, _, _, _, hK1, cons⟩ := lexer_pre_advance_spec h hix
    obtain ⟨_, hix1, hidx1, hhist1⟩ := cons hne
    rw [if_neg (show ¬(l.hist.length = l.K) by omega)] at hhist1
    have hroom1 : n + (lexer_pre_advance l).2.hist.length ≤
        (lexer_pre_advance l).2.K := by
      rw [hhist1, hK1, List.length_append]
      simp only [List.length_cons, List.length_nil]
      omega
    obtain ⟨ihj, ihidx, ihline, ihcol, ihhist⟩ := ih _ w1 hix1 hroom1 hrest
    obtain ⟨_, _, _, hadvmin⟩ := advIter_lower n _ w1 hix1 hrest
    rw [hK1] at hadvmin
    have hidx1ge : 1 ≤ (lexer_pre_advance l).2.idx := by
      rcases hidx1 with h1 | h1 <;> omega
    have hsidx : 1 ≤ (ungIter n (advIter n (lexer_pre_advance l).2)).idx := by
      have hb : n + 1 ≤ l.K + 1 := by omega
      omega
    have hshist : (ungIter n (advIter n (lexer_pre_advance l).2)).hist =
        l.hist ++ [(l.line, l.col)] := by rw [ihhist, hhist1]
    have hnn : (ungIter n (advIter n (lexer_pre_advance l).2)).hist ≠ [] := by
      rw [hshist]; simp
    have hni : (ungIter n (advIter n (lexer_pre_advance l).2)).idx ≠ 0 := by
      omega
    have hu := lexer_unget_succ hnn hni
    have hback : ungIter (n + 1) (advIter (n + 1) l) =
        (lexer_unget (ungIter n (advIter n (lexer_pre_advance l).2))).2 :=
      ungIter_succ_back n (advIter n (lexer_pre_advance l).2)
    have hlhs : (advIter (n + 1) l).idx =
        (advIter n (lexer_pre_advance l).2).idx := rfl
    refine ⟨?_, ?_, ?_, ?_, ?_⟩
    · intro j hj
      rcases Nat.lt_succ_iff_lt_or_eq.1 hj with hj | rfl
      · exact ihj j hj
      · show (lexer_unget (ungIter j
          (advIter j (lexer_pre_advance l).2))).1 = true
        rw [hu]
    · rw [hback, hu, hlhs]
      dsimp only
      omega
    · rw [hback, hu]
      dsimp only
      rw [hshist, List.getLastD_concat]
    · rw [hback, hu]
      dsimp only
      rw [hshist, List.getLastD_concat]
    · rw [hback, hu]
      dsimp only
      rw [hshist, List.dropLast_concat]

/-- Claim C4 (amended): `unget` always fails as a pure no-op when the
history is empty or the cursor is at buffer start; and after `n ≤ K`
consuming advances from a state with empty history, exactly `n` ungets
succeed — restoring the recorded line, column and (empty) history — and
the (n+1)-th unget fails as a no-op.  With `n = K` this is the claim's
"K advances, then exactly K ungets, then failure".  The ungets do *not*
in general restore a byte-identical state: when one of the advances
triggered a refill, the buffer contents and the cursor offset end up
different (see the counterexample). -/
theorem C4_advance_unget :
    (∀ l : LexState, l.hist = [] ∨ l.idx = 0 →
      lexer_unget l = (false, l)) ∧
    (∀ (l : LexState) (n : Nat), wf l → l.idx ≤ l.bytesRead →
      l.hist = [] → n ≤ l.K → consumesN n l = true →
      (∀ j, j < n → (lexer_unget (ungIter j (advIter n l))).1 = true) ∧
      (ungIter n (advIter n l)).line = l.line ∧
      (ungIter n (advIter n l)).col = l.col ∧
      (ungIter n (advIter n l)).hist = [] ∧
      lexer_unget (ungIter n (advIter n l)) =
        (false, ungIter n (advIter n l))) := by
  refine ⟨fun l hc => lexer_unget_fail hc, ?_⟩
  intro l n h hix hh hnK hc
  obtain ⟨hj, _, hline, hcol, hhist⟩ :=
    adv_unget_roundtrip n l h hix (by rw [hh]; simpa using hnK) hc
  rw [hh] at hhist
  exact ⟨hj, hline, hcol, hhist, lexer_unget_fail (Or.inl hhist)⟩

/-- Claim C4, counterexample to the original statement: with `K = 1`,
capacity 4 and input `abcde`, two advances reach cursor offset 3; the
next (consuming, successful) advance triggers a refill, and the matching
unget — exactly K = 1 ungets after K = 1 advances — succeeds and
restores line and column, but leaves the cursor at offset 1, not at the
pre-advance offset 3, and the buffer contents differ: the state is not
byte-identical. -/
theorem C4_counterexample :
    (lexer_unget (lexer_pre_advance (lexer_pre_advance (lexer_pre_advance
        ((_prime (mkLexer 4 1 [97, 98, 99, 100, 101])).2)).2).2).2).1 =
      true ∧
    (lexer_unget (lexer_pre_advance (lexer_pre_advance (lexer_pre_advance
        ((_prime (mkLexer 4 1 [97, 98, 99, 100, 101])).2)).2).2).2).2.line =
      ((lexer_pre_advance (lexer_pre_advance
        ((_prime (mkLexer 4 1 [97, 98, 99, 100, 101])).2)).2).2).line ∧
    (lexer_unget (lexer_pre_advance (lexer_pre_advance (lexer_pre_advance
        ((_prime (mkLexer 4 1 [97, 98, 99, 100, 101])).2)).2).2).2).2.col =
      ((lexer_pre_advance (lexer_pre_advance
        ((_prime (mkLexer 4 1 [97, 98, 99, 100, 101])).2)).2).2).col ∧
    (lexer_unget (lexer_pre_advance (lexer_pre_advance (lexer_pre_advance
        ((_prime (mkLexer 4 1 [97, 98, 99, 100, 101])).2)).2).2).2).2.idx =
      1 ∧
    ((lexer_pre_advance (lexer_pre_advance
        ((_prime (mkLexer 4 1 [97, 98, 99, 100, 101])).2)).2).2).idx = 3 ∧
    (1 : Nat) ≠ 3 := by
  refine ⟨rfl, rfl, rfl, rfl, rfl, by decide⟩

/-- Claim C4, witness: the amended theorem applied at a concrete primed
state with `K = 2` and input `abc`: after 2 advances, 2 ungets restore
line 1, column 1 and the empty history, and the third unget fails as a
no-op. -/
theorem C4_witness :
    (ungIter 2 (advIter 2 ((_prime (mkLexer 8 2 [97, 98, 99])).2))).line =
      ((_prime (mkLexer 8 2 [97, 98, 99])).2).line ∧
    (ungIter 2 (advIter 2 ((_prime (mkLexer 8 2 [97, 98, 99])).2))).col =
      ((_prime (mkLexer 8 2 [97, 98, 99])).2).col ∧
    (ungIter 2 (advIter 2 ((_prime (mkLexer 8 2 [97, 98, 99])).2))).hist =
      [] ∧
    lexer_unget (ungIter 2 (advIter 2
        ((_prime (mkLexer 8 2 [97, 98, 99])).2))) =
      (false,
       ungIter 2 (advIter 2 ((_prime (mkLexer 8 2 [97, 98, 99])).2))) :=
  have hall := C4_advance_unget.2 ((_prime (mkLexer 8 2 [97, 98, 99])).2) 2
    (by unfold wf; decide) (by decide) rfl (by decide) (by decide)
  ⟨hall.2.1, hall.2.2.1, hall.2.2.2.1, hall.2.2.2.2⟩

end Zen
